import Mathlib

/-
Verification development for the drawbridge reconciliation engine.

The Rust sources are shallowly embedded as Lean definitions:
  - src/iprules.rs            : ingress-rule value types and parsing
  - src/cli/dispatch.rs       : dispatch, sync_firewall_rules, sync_dns
  - src/dns/mod.rs            : Dns::find_authoritative_zone
  - src/dns/mem/dns_zone.rs   : MemDnsZone bind/unbind/lookup
  - src/cloud/mem/*           : in-memory cloud double (firewalls, instances)
  - src/cloud/aws/firewall.rs : AwsFirewall add/remove ingress (empty guard)
  - src/cloud/aws/instance.rs : instance state codes, try_ensure_instance_type

Rust strings are embedded as Lean String (character splitting is done on the
underlying character list), HashSet of rules as Finset (the set semantics of
HashSet, which has no observable order), and HashMap of DNS records as an
association list kept sorted by key (a canonical representation of the
extensional finite map a HashMap denotes).
-/

set_option autoImplicit false

namespace Drawbridge

/-! ## Ingress rule model (src/iprules.rs) -/

/-- Model of ipnet IpNet: an IPv4 or IPv6 CIDR block. Only structural
equality of CIDRs matters to the reconciler, so address and prefix length
are carried as plain numbers. -/
inductive IpNet where
  | v4 (addr : Nat) (prefixLen : Nat)
  | v6 (addr : Nat) (prefixLen : Nat)
  deriving DecidableEq

/-- Model of IpPortRange(u16, u16): a closed port interval carried as a pair
of 16-bit numbers. The source performs no validation relating the two
fields. -/
structure IpPortRange where
  fromPort : Nat
  toPort : Nat
  deriving DecidableEq

/-- Model of IpProtocol (called IpService in older revisions): TCP or UDP,
each carrying a port range. -/
inductive IpProtocol where
  | tcp (range : IpPortRange)
  | udp (range : IpPortRange)
  deriving DecidableEq

/-- Model of IpIngressRule(IpNet, IpProtocol): an (CIDR, protocol) pair. -/
structure IpIngressRule where
  cidr : IpNet
  protocol : IpProtocol
  deriving DecidableEq

/-! ## Port-range parsing (impl FromStr for IpPortRange, src/iprules.rs) -/

/-- Model of str::split(sep) over the character list of a Rust string:
splits at every occurrence of the separator, keeping empty substrings. -/
def splitChars (sep : Char) : List Char → List (List Char)
  | [] => [[]]
  | c :: rest =>
    match splitChars sep rest with
    | [] => [[]]
    | w :: ws => if c = sep then [] :: w :: ws else (c :: w) :: ws

/-- Model of the accumulation step of u16::from_str on one character: the
character must be an ASCII digit and the accumulated value must still fit in
16 bits (Rust fails on checked-arithmetic overflow; since the accumulator is
monotone, checking the bound after the step is equivalent). -/
def parseU16Step (acc : Option Nat) (c : Char) : Option Nat :=
  match acc with
  | none => none
  | some n =>
    if c.isDigit then
      if n * 10 + (c.toNat - 48) < 65536 then some (n * 10 + (c.toNat - 48)) else none
    else none

/-- Model of u16::from_str on a digit string (after the optional sign):
empty input fails, otherwise every character is consumed by parseU16Step. -/
def parseU16Digits (cs : List Char) : Option Nat :=
  match cs with
  | [] => none
  | _ => cs.foldl parseU16Step (some 0)

/-- Model of u16::from_str: an optional leading plus sign followed by
decimal digits, failing on anything else or on overflow. -/
def parse_u16 (cs : List Char) : Option Nat :=
  match cs with
  | c :: rest => if c = '+' then parseU16Digits rest else parseU16Digits (c :: rest)
  | [] => parseU16Digits []

/-- Model of impl FromStr for IpPortRange: split on the dash, parse every
part as u16 (any failure aborts), then one part is a single port and two
parts are a range; any other number of parts is an error. -/
def ipPortRange_from_str (s : String) : Option IpPortRange :=
  match (splitChars '-' s.data).mapM parse_u16 with
  | none => none
  | some [a] => some ⟨a, a⟩
  | some [a, b] => some ⟨a, b⟩
  | some _ => none

/-- Decimal digit character, as produced by the usual base-10 rendering. -/
def decChar (d : Nat) : Char := Nat.digitChar d

/-- Decimal rendering of a number below 100000 (enough for every 16-bit
port number) as its standard digit sequence without leading zeros. -/
def decDigits (n : Nat) : List Char :=
  if n < 10 then [decChar n]
  else if n < 100 then [decChar (n / 10), decChar (n % 10)]
  else if n < 1000 then [decChar (n / 100), decChar (n / 10 % 10), decChar (n % 10)]
  else if n < 10000 then
    [decChar (n / 1000), decChar (n / 100 % 10), decChar (n / 10 % 10), decChar (n % 10)]
  else
    [decChar (n / 10000), decChar (n / 1000 % 10), decChar (n / 100 % 10),
      decChar (n / 10 % 10), decChar (n % 10)]

/-- Value of a digit sequence read in base 10. -/
def decValue (cs : List Char) : Nat :=
  cs.foldl (fun n c => n * 10 + (c.toNat - 48)) 0

/-! ## Firewall reconciler (sync_firewall_rules, src/cli/dispatch.rs) -/

/-- Outcome of one run of sync_firewall_rules: the rule set passed to
add_ingress_rules, the rule set passed to remove_ingress_rules, and the
firewall's rule set afterwards. -/
structure SyncOutcome where
  added : Finset IpIngressRule
  removed : Finset IpIngressRule
  final : Finset IpIngressRule
  deriving DecidableEq

/-- Model of sync_firewall_rules over the in-memory firewall: read the
existing rules, add desired minus existing, then remove existing minus
desired. MemFirewall add inserts each given rule and remove deletes each
given rule, so the state after the two calls is recorded in final. The
Finset embedding of HashSet makes the outcome independent of the order in
which existing rules were discovered. -/
def sync_firewall_rules (existing desired : Finset IpIngressRule) : SyncOutcome :=
  let missing_rules := desired \ existing
  let afterAdd := existing ∪ missing_rules
  let extra_rules := existing \ desired
  ⟨missing_rules, extra_rules, afterAdd \ extra_rules⟩

/-- Model of the desired-rule-set construction in the Open arm of dispatch:
the cross product of the command's CIDRs and protocols, inserted into a
HashSet by two nested loops. -/
def desiredRulesOpen (ip_cidrs : List IpNet) (ip_protocols : List IpProtocol) :
    Finset IpIngressRule :=
  ip_cidrs.foldl
    (fun acc c => ip_protocols.foldl (fun acc2 p => insert ⟨c, p⟩ acc2) acc) ∅

/-! ## AWS firewall mutation calls (src/cloud/aws/firewall.rs) -/

/-- Model of the EC2 API requests AwsFirewall can issue while mutating
ingress rules. -/
inductive AwsApiCall where
  | authorizeSecurityGroupIngress (rules : Finset IpIngressRule)
  | revokeSecurityGroupIngress (rules : Finset IpIngressRule)
  deriving DecidableEq

/-- Model of AwsFirewall::add_ingress_rules: when the converted permission
list is empty the function returns Ok without issuing any request,
otherwise it issues one authorize request. -/
def aws_add_ingress_rules (rules : Finset IpIngressRule) : List AwsApiCall :=
  if rules = ∅ then [] else [AwsApiCall.authorizeSecurityGroupIngress rules]

/-- Model of AwsFirewall::remove_ingress_rules: when the converted
permission list is empty the function returns Ok without issuing any
request, otherwise it issues one revoke request. -/
def aws_remove_ingress_rules (rules : Finset IpIngressRule) : List AwsApiCall :=
  if rules = ∅ then [] else [AwsApiCall.revokeSecurityGroupIngress rules]

/-- Model of sync_firewall_rules at the level of EC2 API requests, against
the AWS firewall implementation: the add call for desired minus existing is
made first, then the remove call for existing minus desired; each provider
request is issued only when its rule set is nonempty. -/
def sync_firewall_rules_calls (existing desired : Finset IpIngressRule) : List AwsApiCall :=
  aws_add_ingress_rules (desired \ existing) ++ aws_remove_ingress_rules (existing \ desired)

/-- Predicate for an authorize (rule-addition) request. -/
def AwsApiCall.isAuthorize : AwsApiCall → Bool
  | AwsApiCall.authorizeSecurityGroupIngress _ => true
  | AwsApiCall.revokeSecurityGroupIngress _ => false

/-- Predicate for a revoke (rule-removal) request. -/
def AwsApiCall.isRevoke : AwsApiCall → Bool
  | AwsApiCall.authorizeSecurityGroupIngress _ => false
  | AwsApiCall.revokeSecurityGroupIngress _ => true

/-- Runs a list of provider requests against a provider, stopping at the
first error, mirroring the question-mark propagation in the source. -/
def runAwsCalls (provider : AwsApiCall → Except String Unit) :
    List AwsApiCall → Except String Unit
  | [] => Except.ok ()
  | c :: rest =>
    match provider c with
    | Except.error e => Except.error e
    | Except.ok _ => runAwsCalls provider rest

/-- A provider that rejects any mutation request carrying an empty rule
set and accepts everything else; used to check that reconciliation never
issues an empty-rule mutation. -/
def emptyRejectingProvider : AwsApiCall → Except String Unit
  | AwsApiCall.authorizeSecurityGroupIngress rules =>
    if rules = ∅ then Except.error "empty authorize request" else Except.ok ()
  | AwsApiCall.revokeSecurityGroupIngress rules =>
    if rules = ∅ then Except.error "empty revoke request" else Except.ok ()

/-! ## AWS instance state (src/cloud/aws/instance.rs) -/

/-- Model of enum InstanceStateCode, the abstract power states. -/
inductive InstanceStateCode where
  | pending
  | running
  | terminating
  | terminated
  | stopping
  | stopped
  | unknown (code : Nat)
  deriving DecidableEq

/-- Model of impl From of u8 for InstanceStateCode: the numeric state code
reported by EC2, truncated to 8 bits by get_state, mapped to the abstract
power states with a catch-all for unrecognized codes. -/
def instanceStateCode_from_u8 (code : Nat) : InstanceStateCode :=
  if code = 0 then InstanceStateCode.pending
  else if code = 16 then InstanceStateCode.running
  else if code = 32 then InstanceStateCode.terminating
  else if code = 48 then InstanceStateCode.terminated
  else if code = 64 then InstanceStateCode.stopping
  else if code = 80 then InstanceStateCode.stopped
  else InstanceStateCode.unknown code

/-- The fields of the AWS instance state observed by
try_ensure_instance_type: the decoded power-state code and the current
instance type (an opaque string identifier). -/
structure AwsInstanceObservedState where
  instance_state_code : InstanceStateCode
  instance_type : String
  deriving DecidableEq

/-- Model of AwsInstance::try_ensure_instance_type: reads the current
state; if the type already matches it succeeds with no mutation; else if
the instance is stopped it issues a modify-instance-attribute request and
succeeds; otherwise it fails with a fixed message and issues no request.
The Boolean records whether a type-change request was issued, and the
returned state is the recorded state after the call. -/
def aws_try_ensure_instance_type (st : AwsInstanceObservedState) (desired : String) :
    Except String (AwsInstanceObservedState × Bool) :=
  if st.instance_type = desired then Except.ok (st, false)
  else if st.instance_state_code = InstanceStateCode.stopped then
    Except.ok ({ st with instance_type := desired }, true)
  else Except.error "instance must be stopped to change its type"

/-! ## DNS authoritative-zone resolution (src/dns/mod.rs) -/

/-- Model of str::split_terminator over a Rust string: like split on the
dot, except that a final empty substring produced by a trailing separator
is omitted. -/
def split_terminator (s : String) : List (List Char) :=
  let ps := splitChars '.' s.data
  if ps.getLast? = some [] then ps.dropLast else ps

/-- Model of str::len, the UTF-8 byte length of a Rust string. -/
def byteLen (s : String) : Nat :=
  s.data.foldl (fun n c => n + c.utf8Size) 0

/-- Model of Iterator::max_by_key: the element with the greatest key, the
last one when several elements tie for the maximum, and none for an empty
iterator. -/
def maxByKeyLast {α : Type} (f : α → Nat) : List α → Option α
  | [] => none
  | x :: xs =>
    match maxByKeyLast f xs with
    | none => some x
    | some y => if f y < f x then some x else some y

/-- Model of the filter predicate in find_authoritative_zone: the zone's
dot-separated label sequence is a trailing suffix of the target name's
label sequence. -/
def zoneMatches (fqdn zoneName : String) : Bool :=
  (split_terminator zoneName).isSuffixOf (split_terminator fqdn)

/-- A DNS zone as seen by zone resolution: its provider id and its name. -/
structure DnsZoneHandle where
  id : String
  name : String
  deriving DecidableEq

/-- Model of Dns::find_authoritative_zone: split the target name into
dot-separated labels, keep the zones whose label sequence is a suffix of
the target's labels, and return the one whose name has the greatest byte
length (ties resolved to the last listed); an empty candidate list models
the could-not-find-authoritative-zone error. -/
def find_authoritative_zone (fqdn : String) (zones : List DnsZoneHandle) :
    Option DnsZoneHandle :=
  maxByKeyLast (fun z => byteLen z.name) (zones.filter (fun z => zoneMatches fqdn z.name))

/-- Number of dot-separated labels of a name, for stating the zone most
specific by label count. -/
def labelCount (s : String) : Nat :=
  (split_terminator s).length

/-! ## In-memory DNS zone records (src/dns/mem/dns_zone.rs) -/

/-- Model of DnsTarget: an A record address (IPv4 address carried as a
number) or a CNAME alias. -/
inductive DnsTarget where
  | a (addr : Nat)
  | cname (aliasName : String)
  deriving DecidableEq

/-- Insertion into the record map of a zone, modelling HashMap::insert as
used by MemDnsZone::bind: the record map is embedded as an association
list kept sorted by key, and insertion replaces the entry for the key or
places a new entry at its ordered position. -/
def recInsert (fqdn : String) (t : DnsTarget) :
    List (String × DnsTarget) → List (String × DnsTarget)
  | [] => [(fqdn, t)]
  | (k, v) :: rest =>
    if fqdn = k then (fqdn, t) :: rest
    else if fqdn < k then (fqdn, t) :: (k, v) :: rest
    else (k, v) :: recInsert fqdn t rest

/-- Removal from the record map of a zone, modelling HashMap::remove as
used by MemDnsZone::unbind: every entry for the key is dropped (a HashMap
holds at most one). -/
def recRemove (fqdn : String) (l : List (String × DnsTarget)) :
    List (String × DnsTarget) :=
  l.filter (fun kv => kv.1 ≠ fqdn)

/-- Lookup in the record map of a zone, modelling HashMap::get as used by
MemDnsZone::lookup. -/
def recLookup (fqdn : String) (l : List (String × DnsTarget)) : Option DnsTarget :=
  (l.find? (fun kv => kv.1 == fqdn)).map (fun kv => kv.2)

/-- Well-formedness of an embedded record map: strictly sorted by key, the
canonical representation of a HashMap's at-most-one-entry-per-key shape. -/
def RecWF (l : List (String × DnsTarget)) : Prop :=
  List.Pairwise (fun p q => p.1 < q.1) l

/-! ## In-memory cloud state (src/cloud/mem) and dispatch (src/cli/dispatch.rs) -/

/-- Model of MemFirewall: id, name, and its ingress rule set. -/
structure MemFirewall where
  id : String
  name : String
  rules : Finset IpIngressRule
  deriving DecidableEq

/-- Model of MemInstance: id, name, optional FQDN, current type, fixed IPv4
address, and the running flag (the mem double's power state). -/
structure MemInstance where
  id : String
  name : String
  fqdn : Option String
  instance_type : String
  ip_addr : Nat
  is_running : Bool
  deriving DecidableEq

/-- Model of MemDnsZone: id, name, and its record map. -/
structure MemDnsZone where
  id : String
  name : String
  records : List (String × DnsTarget)
  deriving DecidableEq

/-- The whole mutable state of the in-memory cloud and DNS doubles. The
Rust doubles share interior-mutable stores; here the stores are explicit
lists and handles are positions in them. -/
structure MemState where
  firewalls : List MemFirewall
  instances : List MemInstance
  zones : List MemDnsZone
  deriving DecidableEq

/-- Well-formed state: every zone's record map is canonical. -/
def MemWF (s : MemState) : Prop :=
  ∀ zn ∈ s.zones, RecWF zn.records

instance (l : List (String × DnsTarget)) : Decidable (RecWF l) :=
  inferInstanceAs
    (Decidable (List.Pairwise (fun p q : String × DnsTarget => p.1 < q.1) l))

instance (s : MemState) : Decidable (MemWF s) :=
  inferInstanceAs (Decidable (∀ zn ∈ s.zones, RecWF zn.records))

/-- Applies a function at one position of a list, leaving other positions
and out-of-range indices unchanged. -/
def updAt {α : Type} (n : Nat) (g : α → α) : List α → List α
  | [] => []
  | x :: xs =>
    match n with
    | 0 => g x :: xs
    | Nat.succ m => x :: updAt m g xs

/-- Primitive mutations of the in-memory state, the instrumentation of the
state writes dispatch performs: one full sync_firewall_rules on a firewall,
the type write of try_ensure_instance_type, the running-flag write of
ensure_running and ensure_stopped, and the record writes of bind and
unbind. -/
inductive MOp where
  | syncRules (i : Nat) (desired : Finset IpIngressRule)
  | setInstanceType (i : Nat) (t : String)
  | setRunning (i : Nat) (b : Bool)
  | bindRec (z : Nat) (fqdn : String) (t : DnsTarget)
  | unbindRec (z : Nat) (fqdn : String)
  deriving DecidableEq

/-- The state location an MOp writes. -/
inductive MemLoc where
  | fwRules (i : Nat)
  | instType (i : Nat)
  | instRunning (i : Nat)
  | record (z : Nat) (fqdn : String)
  deriving DecidableEq

/-- Location written by each primitive mutation. -/
def MOp.loc : MOp → MemLoc
  | MOp.syncRules i _ => MemLoc.fwRules i
  | MOp.setInstanceType i _ => MemLoc.instType i
  | MOp.setRunning i _ => MemLoc.instRunning i
  | MOp.bindRec z f _ => MemLoc.record z f
  | MOp.unbindRec z f => MemLoc.record z f

/-- Position of the instance a primitive mutation writes, when it writes
one. -/
def MOp.instTarget : MOp → Option Nat
  | MOp.setInstanceType i _ => some i
  | MOp.setRunning i _ => some i
  | MOp.syncRules _ _ => none
  | MOp.bindRec _ _ _ => none
  | MOp.unbindRec _ _ => none

/-- Position of the firewall a primitive mutation writes, when it writes
one. -/
def MOp.fwTarget : MOp → Option Nat
  | MOp.syncRules i _ => some i
  | MOp.setInstanceType _ _ => none
  | MOp.setRunning _ _ => none
  | MOp.bindRec _ _ _ => none
  | MOp.unbindRec _ _ => none

/-- Whether some mutation in the list writes the given location. -/
def writesTo (W : List MOp) (L : MemLoc) : Prop :=
  L ∈ W.map MOp.loc

instance (W : List MOp) (L : MemLoc) : Decidable (writesTo W L) :=
  inferInstanceAs (Decidable (L ∈ W.map MOp.loc))

/-- Effect of one primitive mutation. The syncRules effect is the faithful
add-then-remove of sync_firewall_rules applied to the firewall's current
rules. -/
def applyOp (o : MOp) (s : MemState) : MemState :=
  match o with
  | MOp.syncRules i d =>
    let g := fun fw : MemFirewall =>
      { fw with rules := (fw.rules ∪ (d \ fw.rules)) \ (fw.rules \ d) }
    { s with firewalls := updAt i g s.firewalls }
  | MOp.setInstanceType i t =>
    let g := fun inst : MemInstance => { inst with instance_type := t }
    { s with instances := updAt i g s.instances }
  | MOp.setRunning i b =>
    let g := fun inst : MemInstance => { inst with is_running := b }
    { s with instances := updAt i g s.instances }
  | MOp.bindRec z f t =>
    let g := fun zn : MemDnsZone => { zn with records := recInsert f t zn.records }
    { s with zones := updAt z g s.zones }
  | MOp.unbindRec z f =>
    let g := fun zn : MemDnsZone => { zn with records := recRemove f zn.records }
    { s with zones := updAt z g s.zones }

/-- Applies a list of primitive mutations left to right. -/
def applyOps (ops : List MOp) (s : MemState) : MemState :=
  ops.foldl (fun st o => applyOp o st) s

/-- Model of find_authoritative_zone as called by sync_dns against the
in-memory zone store: it reads only the zone names and yields the position
of the chosen zone. -/
def memFindAuthZoneIdx (fqdn : String) (zoneNames : List String) : Option Nat :=
  (maxByKeyLast (fun p => byteLen p.2)
    (zoneNames.enum.filter (fun p => zoneMatches fqdn p.2))).map (fun p => p.1)

/-- Tail of one Start iteration after the type check: ensure_running sets
the running flag and reports the fixed address, then, when the instance
declares an FQDN, sync_dns resolves the authoritative zone and binds the
FQDN to the address, failing the dispatch when no zone matches. -/
def startTail (i : Nat) (inst : MemInstance) (zoneNames : List String)
    (opsPrefix : List MOp) : List MOp × Option String :=
  let ops := opsPrefix ++ [MOp.setRunning i true]
  match inst.fqdn with
  | none => (ops, none)
  | some f =>
    match memFindAuthZoneIdx f zoneNames with
    | none => (ops, some ("could not find authoritative DNS zone for: " ++ f))
    | some z => (ops ++ [MOp.bindRec z f (DnsTarget.a inst.ip_addr)], none)

/-- One iteration of the Start arm of dispatch for the instance at one
position: skipped when the name is not targeted; otherwise
try_ensure_instance_type runs first when a desired type was given (writing
the type when the instance is not running, failing when it is running with
a different type, succeeding with no change when the type already matches;
the matching-type branch is recorded as a write of the unchanged value,
which has the same effect on the state), then ensure_running and DNS
binding follow. -/
def startStep (instance_type : Option String) (names : List String) (s : MemState)
    (i : Nat) : List MOp × Option String :=
  match s.instances.get? i with
  | none => ([], none)
  | some inst =>
    if inst.name ∈ names then
      match instance_type with
      | none => startTail i inst (s.zones.map MemDnsZone.name) []
      | some ty =>
        if inst.instance_type = ty then
          startTail i inst (s.zones.map MemDnsZone.name) [MOp.setInstanceType i ty]
        else if inst.is_running then
          ([], some "instance must be stopped to change its type")
        else
          startTail i inst (s.zones.map MemDnsZone.name) [MOp.setInstanceType i ty]
    else ([], none)

/-- One iteration of the Stop arm of dispatch for the instance at one
position: skipped when the name is not targeted; otherwise, when the
instance declares an FQDN, sync_dns resolves the authoritative zone and
unbinds the FQDN first (failing the dispatch when no zone matches), and
only then ensure_stopped clears the running flag. -/
def stopStep (names : List String) (s : MemState) (i : Nat) :
    List MOp × Option String :=
  match s.instances.get? i with
  | none => ([], none)
  | some inst =>
    if inst.name ∈ names then
      match inst.fqdn with
      | none => ([MOp.setRunning i false], none)
      | some f =>
        match memFindAuthZoneIdx f (s.zones.map MemDnsZone.name) with
        | none => ([], some ("could not find authoritative DNS zone for: " ++ f))
        | some z => ([MOp.unbindRec z f, MOp.setRunning i false], none)
    else ([], none)

/-- One iteration of the Open or Close arm of dispatch for the firewall at
one position: skipped when the name is not targeted, otherwise one
sync_firewall_rules run against the desired set. -/
def fwStep (desired : Finset IpIngressRule) (names : List String) (s : MemState)
    (i : Nat) : List MOp × Option String :=
  match s.firewalls.get? i with
  | none => ([], none)
  | some fw => if fw.name ∈ names then ([MOp.syncRules i desired], none) else ([], none)

/-- Sequential fail-fast processing of the resolved resources: each
iteration's writes are applied before the next iteration runs, and the
first error aborts the remaining iterations, mirroring the question-mark
propagation inside the dispatch loops. -/
def goSteps (step : MemState → Nat → List MOp × Option String) :
    MemState → List Nat → List MOp × Option String
  | _, [] => ([], none)
  | s, i :: rest =>
    match step s i with
    | (ops, some e) => (ops, some e)
    | (ops, none) =>
      let r := goSteps step (applyOps ops s) rest
      (ops ++ r.1, r.2)

/-- Model of cli::Command in its final shape. -/
inductive Command where
  | openCmd (ip_cidrs : List IpNet) (ip_protocols : List IpProtocol) (names : List String)
  | closeCmd (names : List String)
  | startCmd (instance_type : Option String) (names : List String)
  | stopCmd (names : List String)
  deriving DecidableEq

/-- The write trace and error outcome of one dispatch invocation: Open and
Close walk the firewall store, Start and Stop walk the instance store, each
filtered by the command's names. -/
def commandTrace (cmd : Command) (s : MemState) : List MOp × Option String :=
  match cmd with
  | Command.openCmd cs ps names =>
    goSteps (fwStep (desiredRulesOpen cs ps) names) s (List.range s.firewalls.length)
  | Command.closeCmd names =>
    goSteps (fwStep ∅ names) s (List.range s.firewalls.length)
  | Command.startCmd ty names =>
    goSteps (startStep ty names) s (List.range s.instances.length)
  | Command.stopCmd names =>
    goSteps (stopStep names) s (List.range s.instances.length)

/-- Model of dispatch over the in-memory cloud and DNS: the state after the
invocation together with the error it returned, if any. -/
def dispatch (cmd : Command) (s : MemState) : MemState × Option String :=
  let r := commandTrace cmd s
  (applyOps r.1 s, r.2)

/-! ## Call-order events of the Stop arm (src/cli/dispatch.rs) -/

/-- Observable capability calls of the Stop arm, tagged with the position
of the instance being processed: the sync_dns unbind of its FQDN and the
ensure_stopped call. -/
inductive StopEvent where
  | syncDnsUnbind (i : Nat) (fqdn : String)
  | ensureStopped (i : Nat)
  deriving DecidableEq

/-- Position of the instance an event belongs to. -/
def StopEvent.instIdx : StopEvent → Nat
  | StopEvent.syncDnsUnbind i _ => i
  | StopEvent.ensureStopped i => i

/-- Event trace of the Stop arm of dispatch over the targeted instances'
FQDN declarations, parametric in the DNS capability: resolveZone models
find_authoritative_zone (none is the no-authoritative-zone error) and
unbindResult models DnsZone::unbind (some is a provider error). An FQDN, if
declared, is unbound before ensure_stopped runs, and any failure aborts the
whole dispatch. -/
def stopEventsGo (resolveZone : String → Option Nat)
    (unbindResult : Nat → String → Option String) :
    Nat → List (Option String) → List StopEvent × Option String
  | _, [] => ([], none)
  | k, fq :: rest =>
    match fq with
    | none =>
      let r := stopEventsGo resolveZone unbindResult (k + 1) rest
      (StopEvent.ensureStopped k :: r.1, r.2)
    | some f =>
      match resolveZone f with
      | none => ([], some ("could not find authoritative DNS zone for: " ++ f))
      | some z =>
        match unbindResult z f with
        | some e => ([StopEvent.syncDnsUnbind k f], some e)
        | none =>
          let r := stopEventsGo resolveZone unbindResult (k + 1) rest
          (StopEvent.syncDnsUnbind k f :: StopEvent.ensureStopped k :: r.1, r.2)

/-- Event trace of a whole Stop dispatch, starting at the first targeted
instance. -/
def stopEvents (resolveZone : String → Option Nat)
    (unbindResult : Nat → String → Option String) (fqdns : List (Option String)) :
    List StopEvent × Option String :=
  stopEventsGo resolveZone unbindResult 0 fqdns

/-- Property that a command's name list matches no resource of the state:
no firewall bears a targeted name for Open and Close, no instance does for
Start and Stop, so the provider lookup returns the empty list. -/
def noTargets (cmd : Command) (s : MemState) : Prop :=
  match cmd with
  | Command.openCmd _ _ names => ∀ fw ∈ s.firewalls, fw.name ∉ names
  | Command.closeCmd names => ∀ fw ∈ s.firewalls, fw.name ∉ names
  | Command.startCmd _ names => ∀ inst ∈ s.instances, inst.name ∉ names
  | Command.stopCmd names => ∀ inst ∈ s.instances, inst.name ∉ names

/-! ## Theorems -/

/-! ### Firewall reconciliation: C1 and C4 -/

theorem union_sdiff_sdiff_eq (R D : Finset IpIngressRule) :
    (R ∪ (D \ R)) \ (R \ D) = D := by
  ext a
  simp only [Finset.mem_sdiff, Finset.mem_union, not_and, not_not]
  tauto

theorem mem_foldl_insert_protocols (c : IpNet) (ps : List IpProtocol)
    (acc : Finset IpIngressRule) (r : IpIngressRule) :
    (r ∈ ps.foldl (fun acc2 p => insert (⟨c, p⟩ : IpIngressRule) acc2) acc) ↔
      r ∈ acc ∨ ∃ p ∈ ps, r = ⟨c, p⟩ := by
  induction ps generalizing acc with
  | nil => simp
  | cons p ps ih =>
    simp only [List.foldl_cons, ih, Finset.mem_insert, List.mem_cons]
    constructor
    · rintro ((h | h) | ⟨q, hq, hr⟩)
      · exact Or.inr ⟨p, Or.inl rfl, h⟩
      · exact Or.inl h
      · exact Or.inr ⟨q, Or.inr hq, hr⟩
    · rintro (h | ⟨q, (hq | hq), hr⟩)
      · exact Or.inl (Or.inr h)
      · exact Or.inl (Or.inl (hq ▸ hr))
      · exact Or.inr ⟨q, hq, hr⟩

theorem mem_desiredRulesOpen (cs : List IpNet) (ps : List IpProtocol) (r : IpIngressRule) :
    r ∈ desiredRulesOpen cs ps ↔ ∃ c ∈ cs, ∃ p ∈ ps, r = ⟨c, p⟩ := by
  have main : ∀ (l : List IpNet) (acc : Finset IpIngressRule),
      (r ∈ l.foldl
        (fun acc c => ps.foldl (fun acc2 p => insert (⟨c, p⟩ : IpIngressRule) acc2) acc) acc) ↔
        r ∈ acc ∨ ∃ c ∈ l, ∃ p ∈ ps, r = ⟨c, p⟩ := by
    intro l
    induction l with
    | nil => simp
    | cons c l ih =>
      intro acc
      simp only [List.foldl_cons, ih, mem_foldl_insert_protocols, List.mem_cons]
      constructor
      · rintro ((h | h) | ⟨c2, hc2, h⟩)
        · exact Or.inl h
        · exact Or.inr ⟨c, Or.inl rfl, h⟩
        · exact Or.inr ⟨c2, Or.inr hc2, h⟩
      · rintro (h | ⟨c2, (hc2 | hc2), h⟩)
        · exact Or.inl (Or.inl h)
        · exact Or.inl (Or.inr (hc2 ▸ h))
        · exact Or.inr ⟨c2, hc2, h⟩
  have h0 := main cs ∅
  simpa [desiredRulesOpen] using h0

/-- C1: for every firewall with current rule set R and desired rule set D
(for Open, the cross product of the command's CIDRs and protocols; for
Close, the empty set passed through the same code path), after
sync_firewall_rules succeeds the firewall's rule set equals exactly D,
exactly the rules in D minus R are requested as additions and exactly the
rules in R minus D as removals (no redundant additions or removals); the
Finset embedding of the rule HashSet makes all three outcomes independent
of the order in which existing rules were discovered. -/
theorem c1_firewall_reconciliation_exact (R D : Finset IpIngressRule) :
    (sync_firewall_rules R D).final = D ∧
    (sync_firewall_rules R D).added = D \ R ∧
    (sync_firewall_rules R D).removed = R \ D ∧
    (∀ (cs : List IpNet) (ps : List IpProtocol) (r : IpIngressRule),
      r ∈ desiredRulesOpen cs ps ↔ ∃ c ∈ cs, ∃ p ∈ ps, r = ⟨c, p⟩) := by
  refine ⟨?_, rfl, rfl, mem_desiredRulesOpen⟩
  show (R ∪ (D \ R)) \ (R \ D) = D
  exact union_sdiff_sdiff_eq R D

/-- C4: whenever the computed missing set (desired minus current) or extra
set (current minus desired) is empty, no provider mutation request is
issued for that direction, and reconciliation succeeds even against a
provider that errors on every empty-rule authorize or revoke request. -/
theorem c4_empty_direction_no_mutation_call (R D : Finset IpIngressRule) :
    (D \ R = ∅ → ∀ c ∈ sync_firewall_rules_calls R D, c.isAuthorize = false) ∧
    (R \ D = ∅ → ∀ c ∈ sync_firewall_rules_calls R D, c.isRevoke = false) ∧
    runAwsCalls emptyRejectingProvider (sync_firewall_rules_calls R D) = Except.ok () := by
  by_cases h1 : D \ R = ∅ <;> by_cases h2 : R \ D = ∅ <;>
    simp [sync_firewall_rules_calls, aws_add_ingress_rules, aws_remove_ingress_rules,
      h1, h2, runAwsCalls, emptyRejectingProvider, AwsApiCall.isAuthorize, AwsApiCall.isRevoke]

/-! ### Instance type change and state codes: C3 and C7 -/

/-- C3: try_ensure_instance_type succeeds without issuing any mutation when
the current type already equals the desired one (whatever the power state,
including running); when the type differs and the power state is Stopped it
issues the type-change request and succeeds; in every other case it fails
with exactly the message about the instance having to be stopped, issuing
no request, so the recorded type is unchanged after the failed attempt. -/
theorem c3_try_ensure_instance_type_cases (st : AwsInstanceObservedState) (desired : String) :
    (st.instance_type = desired →
      aws_try_ensure_instance_type st desired = Except.ok (st, false)) ∧
    (st.instance_type ≠ desired → st.instance_state_code = InstanceStateCode.stopped →
      aws_try_ensure_instance_type st desired =
        Except.ok ({ st with instance_type := desired }, true)) ∧
    (st.instance_type ≠ desired → st.instance_state_code ≠ InstanceStateCode.stopped →
      aws_try_ensure_instance_type st desired =
        Except.error "instance must be stopped to change its type") := by
  refine ⟨fun h => ?_, fun h1 h2 => ?_, fun h1 h2 => ?_⟩
  · simp [aws_try_ensure_instance_type, h]
  · simp [aws_try_ensure_instance_type, h1, h2]
  · simp [aws_try_ensure_instance_type, h1, h2]

/-- C7: the provider's numeric instance state code (an 8-bit value after
the source's truncation) maps to the abstract power states exactly as 0 to
Pending, 16 to Running, 32 to Terminating, 48 to Terminated, 64 to
Stopping, 80 to Stopped, and any other 8-bit value to Unknown carrying that
value. -/
theorem c7_instance_state_code_mapping :
    instanceStateCode_from_u8 0 = InstanceStateCode.pending ∧
    instanceStateCode_from_u8 16 = InstanceStateCode.running ∧
    instanceStateCode_from_u8 32 = InstanceStateCode.terminating ∧
    instanceStateCode_from_u8 48 = InstanceStateCode.terminated ∧
    instanceStateCode_from_u8 64 = InstanceStateCode.stopping ∧
    instanceStateCode_from_u8 80 = InstanceStateCode.stopped ∧
    ∀ code : Nat, code < 256 → code ∉ ([0, 16, 32, 48, 64, 80] : List Nat) →
      instanceStateCode_from_u8 code = InstanceStateCode.unknown code := by
  refine ⟨rfl, rfl, rfl, rfl, rfl, rfl, ?_⟩
  intro code _ hmem
  simp only [List.mem_cons, List.not_mem_nil, or_false, not_or] at hmem
  obtain ⟨h0, h16, h32, h48, h64, h80⟩ := hmem
  simp [instanceStateCode_from_u8, h0, h16, h32, h48, h64, h80]

/-! ### DNS record map: C8 -/

theorem recInsert_cons (f k : String) (t v : DnsTarget) (rest : List (String × DnsTarget)) :
    recInsert f t ((k, v) :: rest) =
      if f = k then (f, t) :: rest
      else if f < k then (f, t) :: (k, v) :: rest
      else (k, v) :: recInsert f t rest := rfl

theorem recLookup_cons (g k : String) (v : DnsTarget) (rest : List (String × DnsTarget)) :
    recLookup g ((k, v) :: rest) = if k = g then some v else recLookup g rest := by
  cases hkg : k == g with
  | true =>
    have h : k = g := beq_iff_eq.mp hkg
    simp [recLookup, List.find?, hkg, h]
  | false =>
    have h : ¬ k = g := beq_eq_false_iff_ne.mp hkg
    simp [recLookup, List.find?, hkg, h]

theorem recRemove_cons (f k : String) (v : DnsTarget) (rest : List (String × DnsTarget)) :
    recRemove f ((k, v) :: rest) =
      if k = f then recRemove f rest else (k, v) :: recRemove f rest := by
  by_cases h : k = f
  · simp [recRemove, List.filter_cons, h]
  · simp [recRemove, List.filter_cons, h]

theorem recInsert_mem (f : String) (t : DnsTarget) (l : List (String × DnsTarget)) :
    ∀ p ∈ recInsert f t l, p = (f, t) ∨ p ∈ l := by
  induction l with
  | nil => simp [recInsert]
  | cons kv rest ih =>
    obtain ⟨k, v⟩ := kv
    intro p hp
    rw [recInsert_cons] at hp
    split_ifs at hp with h1 h2
    · rcases List.mem_cons.mp hp with hp | hp
      · exact Or.inl hp
      · exact Or.inr (List.mem_cons_of_mem _ hp)
    · rcases List.mem_cons.mp hp with hp | hp
      · exact Or.inl hp
      · exact Or.inr hp
    · rcases List.mem_cons.mp hp with hp | hp
      · exact Or.inr (hp ▸ List.mem_cons_self _ _)
      · rcases ih p hp with h | h
        · exact Or.inl h
        · exact Or.inr (List.mem_cons_of_mem _ h)

theorem recInsert_recWF (f : String) (t : DnsTarget) (l : List (String × DnsTarget))
    (h : RecWF l) : RecWF (recInsert f t l) := by
  induction l with
  | nil => simp [recInsert, RecWF]
  | cons kv rest ih =>
    obtain ⟨k, v⟩ := kv
    rcases List.pairwise_cons.mp h with ⟨hk, hrest⟩
    rw [RecWF, recInsert_cons]
    split_ifs with h1 h2
    · exact List.pairwise_cons.mpr ⟨fun q hq => h1 ▸ hk q hq, hrest⟩
    · refine List.pairwise_cons.mpr ⟨?_, h⟩
      intro q hq
      rcases List.mem_cons.mp hq with hq | hq
      · exact hq ▸ h2
      · exact lt_trans h2 (hk q hq)
    · have hkf : k < f := by
        rcases lt_trichotomy f k with h3 | h3 | h3
        · exact absurd h3 h2
        · exact absurd h3 h1
        · exact h3
      refine List.pairwise_cons.mpr ⟨?_, ih hrest⟩
      intro q hq
      rcases recInsert_mem f t rest q hq with h3 | h3
      · exact h3 ▸ hkf
      · exact hk q h3

theorem recRemove_recWF (f : String) (l : List (String × DnsTarget)) (h : RecWF l) :
    RecWF (recRemove f l) :=
  List.Pairwise.filter _ h

theorem recWF_keys_nodup (l : List (String × DnsTarget)) (h : RecWF l) :
    (l.map Prod.fst).Nodup := by
  have h2 : List.Pairwise (fun p q : String × DnsTarget => p.1 ≠ q.1) l :=
    h.imp (fun hlt => ne_of_lt hlt)
  exact (List.pairwise_map).mpr h2

theorem recLookup_recInsert_self (f : String) (t : DnsTarget)
    (l : List (String × DnsTarget)) : recLookup f (recInsert f t l) = some t := by
  induction l with
  | nil => simp [recInsert, recLookup, List.find?]
  | cons kv rest ih =>
    obtain ⟨k, v⟩ := kv
    rw [recInsert_cons]
    split_ifs with h1 h2
    · rw [recLookup_cons, if_pos rfl]
    · rw [recLookup_cons, if_pos rfl]
    · rw [recLookup_cons, if_neg (fun h => h1 h.symm)]
      exact ih

theorem recLookup_recInsert_ne (f g : String) (t : DnsTarget)
    (l : List (String × DnsTarget)) (hgf : g ≠ f) :
    recLookup g (recInsert f t l) = recLookup g l := by
  induction l with
  | nil => simp [recInsert, recLookup, List.find?, beq_eq_false_iff_ne.mpr (fun h => hgf h.symm)]
  | cons kv rest ih =>
    obtain ⟨k, v⟩ := kv
    rw [recInsert_cons]
    split_ifs with h1 h2
    · rw [recLookup_cons, if_neg (fun h => hgf h.symm), recLookup_cons, if_neg (h1 ▸ fun h => hgf h.symm)]
    · rw [recLookup_cons, if_neg (fun h => hgf h.symm)]
    · rw [recLookup_cons, recLookup_cons]
      by_cases hkg : k = g
      · rw [if_pos hkg, if_pos hkg]
      · rw [if_neg hkg, if_neg hkg]
        exact ih

theorem recLookup_recRemove_self (f : String) (l : List (String × DnsTarget)) :
    recLookup f (recRemove f l) = none := by
  induction l with
  | nil => simp [recRemove, recLookup]
  | cons kv rest ih =>
    obtain ⟨k, v⟩ := kv
    rw [recRemove_cons]
    by_cases h : k = f
    · rw [if_pos h]
      exact ih
    · rw [if_neg h, recLookup_cons, if_neg h]
      exact ih

theorem recLookup_recRemove_ne (f g : String) (l : List (String × DnsTarget))
    (hgf : g ≠ f) : recLookup g (recRemove f l) = recLookup g l := by
  induction l with
  | nil => simp [recRemove, recLookup]
  | cons kv rest ih =>
    obtain ⟨k, v⟩ := kv
    rw [recRemove_cons, recLookup_cons]
    by_cases h1 : k = f
    · rw [if_pos h1, if_neg (h1 ▸ fun h => hgf h.symm)]
      exact ih
    · rw [if_neg h1, recLookup_cons]
      by_cases hkg : k = g
      · rw [if_pos hkg, if_pos hkg]
      · rw [if_neg hkg, if_neg hkg]
        exact ih

theorem recRemove_absent (f : String) (l : List (String × DnsTarget))
    (h : recLookup f l = none) : recRemove f l = l := by
  induction l with
  | nil => simp [recRemove]
  | cons kv rest ih =>
    obtain ⟨k, v⟩ := kv
    rw [recLookup_cons] at h
    by_cases h1 : k = f
    · rw [if_pos h1] at h
      exact absurd h (by simp)
    · rw [if_neg h1] at h
      rw [recRemove_cons, if_neg h1, ih h]

/-- C8: every DNS zone record map holds at most one record per FQDN, an
invariant preserved by every bind and unbind (stated on the canonical
association-list embedding of the HashMap, RecWF); bind replaces any
existing record for exactly that name and leaves all other names alone
(upsert), and unbind removes the record for the name, leaves other names
alone, and is a no-op when no record for that name exists. -/
theorem c8_zone_record_map_invariants (l : List (String × DnsTarget)) (f g : String)
    (t : DnsTarget) :
    (RecWF l → RecWF (recInsert f t l)) ∧
    (RecWF l → RecWF (recRemove f l)) ∧
    (RecWF l → ((recInsert f t l).map Prod.fst).Nodup) ∧
    (RecWF l → ((recRemove f l).map Prod.fst).Nodup) ∧
    recLookup f (recInsert f t l) = some t ∧
    (g ≠ f → recLookup g (recInsert f t l) = recLookup g l) ∧
    recLookup f (recRemove f l) = none ∧
    (g ≠ f → recLookup g (recRemove f l) = recLookup g l) ∧
    (recLookup f l = none → recRemove f l = l) := by
  refine ⟨fun h => recInsert_recWF f t l h,
    fun h => recRemove_recWF f l h,
    fun h => recWF_keys_nodup _ (recInsert_recWF f t l h),
    fun h => recWF_keys_nodup _ (recRemove_recWF f l h),
    recLookup_recInsert_self f t l,
    fun hgf => recLookup_recInsert_ne f g t l hgf,
    recLookup_recRemove_self f l,
    fun hgf => recLookup_recRemove_ne f g l hgf,
    fun h => recRemove_absent f l h⟩

/-! ### Port-range parsing: C9 -/

theorem decChar_toNat (d : Nat) (h : d < 10) : (decChar d).toNat = 48 + d := by
  interval_cases d <;> rfl

theorem decChar_isDigit (d : Nat) (h : d < 10) : (decChar d).isDigit = true := by
  interval_cases d <;> decide

theorem decChar_ne_dash (d : Nat) (h : d < 10) : decChar d ≠ '-' := by
  interval_cases d <;> decide

theorem decDigits_ne_nil (n : Nat) : decDigits n ≠ [] := by
  unfold decDigits
  split_ifs <;> simp

theorem decDigits_shape (n : Nat) (h : n < 100000) :
    ∀ c ∈ decDigits n, ∃ d, d < 10 ∧ c = decChar d := by
  unfold decDigits
  split_ifs with h1 h2 h3 h4 <;> intro c hc <;>
    simp only [List.mem_cons, List.not_mem_nil, or_false] at hc
  · exact ⟨n, by omega, hc⟩
  · rcases hc with hc | hc
    · exact ⟨n / 10, by omega, hc⟩
    · exact ⟨n % 10, by omega, hc⟩
  · rcases hc with hc | hc | hc
    · exact ⟨n / 100, by omega, hc⟩
    · exact ⟨n / 10 % 10, by omega, hc⟩
    · exact ⟨n % 10, by omega, hc⟩
  · rcases hc with hc | hc | hc | hc
    · exact ⟨n / 1000, by omega, hc⟩
    · exact ⟨n / 100 % 10, by omega, hc⟩
    · exact ⟨n / 10 % 10, by omega, hc⟩
    · exact ⟨n % 10, by omega, hc⟩
  · rcases hc with hc | hc | hc | hc | hc
    · exact ⟨n / 10000, by omega, hc⟩
    · exact ⟨n / 1000 % 10, by omega, hc⟩
    · exact ⟨n / 100 % 10, by omega, hc⟩
    · exact ⟨n / 10 % 10, by omega, hc⟩
    · exact ⟨n % 10, by omega, hc⟩

theorem decDigits_all_digit (n : Nat) (h : n < 100000) :
    ∀ c ∈ decDigits n, c.isDigit = true := by
  intro c hc
  obtain ⟨d, hd, rfl⟩ := decDigits_shape n h c hc
  exact decChar_isDigit d hd

theorem decDigits_no_dash (n : Nat) (h : n < 100000) : '-' ∉ decDigits n := by
  intro hc
  obtain ⟨d, hd, he⟩ := decDigits_shape n h '-' hc
  exact decChar_ne_dash d hd he.symm

theorem decValue_decDigits (n : Nat) (h : n < 100000) : decValue (decDigits n) = n := by
  unfold decDigits
  split_ifs with h1 h2 h3 h4
  · have e1 : (decChar n).toNat = 48 + n := decChar_toNat _ (by omega)
    simp only [decValue, List.foldl, e1]
    omega
  · have e1 : (decChar (n / 10)).toNat = 48 + n / 10 := decChar_toNat _ (by omega)
    have e2 : (decChar (n % 10)).toNat = 48 + n % 10 := decChar_toNat _ (by omega)
    simp only [decValue, List.foldl, e1, e2]
    omega
  · have e1 : (decChar (n / 100)).toNat = 48 + n / 100 := decChar_toNat _ (by omega)
    have e2 : (decChar (n / 10 % 10)).toNat = 48 + n / 10 % 10 := decChar_toNat _ (by omega)
    have e3 : (decChar (n % 10)).toNat = 48 + n % 10 := decChar_toNat _ (by omega)
    simp only [decValue, List.foldl, e1, e2, e3]
    omega
  · have e1 : (decChar (n / 1000)).toNat = 48 + n / 1000 := decChar_toNat _ (by omega)
    have e2 : (decChar (n / 100 % 10)).toNat = 48 + n / 100 % 10 := decChar_toNat _ (by omega)
    have e3 : (decChar (n / 10 % 10)).toNat = 48 + n / 10 % 10 := decChar_toNat _ (by omega)
    have e4 : (decChar (n % 10)).toNat = 48 + n % 10 := decChar_toNat _ (by omega)
    simp only [decValue, List.foldl, e1, e2, e3, e4]
    omega
  · have e1 : (decChar (n / 10000)).toNat = 48 + n / 10000 := decChar_toNat _ (by omega)
    have e2 : (decChar (n / 1000 % 10)).toNat = 48 + n / 1000 % 10 := decChar_toNat _ (by omega)
    have e3 : (decChar (n / 100 % 10)).toNat = 48 + n / 100 % 10 := decChar_toNat _ (by omega)
    have e4 : (decChar (n / 10 % 10)).toNat = 48 + n / 10 % 10 := decChar_toNat _ (by omega)
    have e5 : (decChar (n % 10)).toNat = 48 + n % 10 := decChar_toNat _ (by omega)
    simp only [decValue, List.foldl, e1, e2, e3, e4, e5]
    omega

theorem decFoldl_le (l : List Char) : ∀ m : Nat,
    m ≤ l.foldl (fun m2 c => m2 * 10 + (c.toNat - 48)) m := by
  induction l with
  | nil => intro m; exact le_refl m
  | cons c rest ih =>
    intro m
    exact le_trans (by omega) (ih (m * 10 + (c.toNat - 48)))

theorem foldl_parseU16Step (cs : List Char) : ∀ n : Nat,
    (∀ c ∈ cs, c.isDigit = true) →
    cs.foldl (fun m c => m * 10 + (c.toNat - 48)) n < 65536 →
    cs.foldl parseU16Step (some n) =
      some (cs.foldl (fun m c => m * 10 + (c.toNat - 48)) n) := by
  induction cs with
  | nil => intro n _ _; rfl
  | cons c rest ih =>
    intro n hd hb
    have hc : c.isDigit = true := hd c (List.mem_cons_self _ _)
    have hb2 : n * 10 + (c.toNat - 48) < 65536 := by
      have := decFoldl_le rest (n * 10 + (c.toNat - 48))
      simp only [List.foldl_cons] at hb
      omega
    have hstep : parseU16Step (some n) c = some (n * 10 + (c.toNat - 48)) := by
      simp [parseU16Step, hc, hb2]
    simp only [List.foldl_cons, hstep]
    exact ih (n * 10 + (c.toNat - 48)) (fun c2 h2 => hd c2 (List.mem_cons_of_mem _ h2))
      (by simpa using hb)

theorem parse_u16_decDigits (n : Nat) (h : n < 65536) : parse_u16 (decDigits n) = some n := by
  have hlt : n < 100000 := by omega
  obtain ⟨c, rest, hcons⟩ := List.exists_cons_of_ne_nil (decDigits_ne_nil n)
  have hcd : c.isDigit = true := decDigits_all_digit n hlt c (hcons ▸ List.mem_cons_self _ _)
  have hcp : c ≠ '+' := by
    intro e
    rw [e] at hcd
    exact absurd hcd (by decide)
  have hval : decValue (decDigits n) = n := decValue_decDigits n hlt
  have hfold : (decDigits n).foldl (fun m c => m * 10 + (c.toNat - 48)) 0 = n := hval
  rw [hcons]
  rw [parse_u16, if_neg hcp]
  have hpd : parseU16Digits (c :: rest) = (c :: rest).foldl parseU16Step (some 0) := rfl
  rw [hpd, ← hcons]
  rw [foldl_parseU16Step (decDigits n) 0 (decDigits_all_digit n hlt) (by rw [hfold]; exact h)]
  rw [hfold]

theorem splitChars_ne_nil (sep : Char) (cs : List Char) : splitChars sep cs ≠ [] := by
  cases cs with
  | nil => simp [splitChars]
  | cons c rest =>
    unfold splitChars
    cases h : splitChars sep rest with
    | nil => simp
    | cons w ws => by_cases hc : c = sep <;> simp [hc]

theorem splitChars_not_mem (sep : Char) (cs : List Char) (h : sep ∉ cs) :
    splitChars sep cs = [cs] := by
  induction cs with
  | nil => rfl
  | cons c rest ih =>
    have hcs : c ≠ sep := fun e => h (e ▸ List.mem_cons_self _ _)
    have hr : sep ∉ rest := fun hm => h (List.mem_cons_of_mem _ hm)
    unfold splitChars
    rw [ih hr]
    simp [hcs]

theorem splitChars_cons (sep c : Char) (rest : List Char) :
    splitChars sep (c :: rest) =
      match splitChars sep rest with
      | [] => [[]]
      | w :: ws => if c = sep then [] :: w :: ws else (c :: w) :: ws := rfl

theorem splitChars_append (sep : Char) (xs ys : List Char) (h : sep ∉ xs) :
    splitChars sep (xs ++ sep :: ys) = xs :: splitChars sep ys := by
  induction xs with
  | nil =>
    obtain ⟨w, ws, hws⟩ := List.exists_cons_of_ne_nil (splitChars_ne_nil sep ys)
    simp only [List.nil_append, splitChars_cons, hws]
    simp
  | cons x xs ih =>
    have hxs : x ≠ sep := fun e => h (e ▸ List.mem_cons_self _ _)
    have hr : sep ∉ xs := fun hm => h (List.mem_cons_of_mem _ hm)
    simp only [List.cons_append, splitChars_cons, ih hr]
    simp [hxs]

/-- C9: port-range construction and parsing enforce no ordering between the
two bounds. For every pair of 16-bit port numbers a and b, including a
greater than b, parsing the decimal string a-dash-b succeeds and yields the
range (a, b) unchanged; the IpPortRange constructor itself carries no
validation, so no operation rejects an inverted range. -/
theorem c9_port_range_parse_inverted_ok (a b : Nat) (ha : a < 65536) (hb : b < 65536) :
    ipPortRange_from_str (String.mk (decDigits a ++ '-' :: decDigits b)) =
      some ⟨a, b⟩ := by
  have hda : '-' ∉ decDigits a := decDigits_no_dash a (by omega)
  have hdb : '-' ∉ decDigits b := decDigits_no_dash b (by omega)
  have hdata : (String.mk (decDigits a ++ '-' :: decDigits b)).data =
      decDigits a ++ '-' :: decDigits b := rfl
  have hsplit : splitChars '-' (decDigits a ++ '-' :: decDigits b) =
      [decDigits a, decDigits b] := by
    rw [splitChars_append '-' _ _ hda, splitChars_not_mem '-' _ hdb]
  have hmap : List.mapM parse_u16 [decDigits a, decDigits b] = some [a, b] := by
    simp [List.mapM, List.mapM.loop, parse_u16_decDigits a ha, parse_u16_decDigits b hb]
  rw [ipPortRange_from_str, hdata, hsplit, hmap]

/-- Witness for C9 at the inverted range 443-80. -/
theorem c9_witness : ipPortRange_from_str (String.mk (decDigits 443 ++ '-' :: decDigits 80)) =
    some ⟨443, 80⟩ :=
  c9_port_range_parse_inverted_ok 443 80 (by decide) (by decide)

/-! ### Authoritative-zone resolution: C2 -/

theorem maxByKeyLast_cons {α : Type} (f : α → Nat) (x : α) (xs : List α) :
    maxByKeyLast f (x :: xs) =
      match maxByKeyLast f xs with
      | none => some x
      | some y => if f y < f x then some x else some y := rfl

theorem maxByKeyLast_eq_none_iff {α : Type} (f : α → Nat) (l : List α) :
    maxByKeyLast f l = none ↔ l = [] := by
  cases l with
  | nil => simp [maxByKeyLast]
  | cons x xs =>
    rw [maxByKeyLast_cons]
    cases h : maxByKeyLast f xs with
    | none => simp
    | some y => by_cases hf : f y < f x <;> simp [hf]

theorem maxByKeyLast_mem {α : Type} (f : α → Nat) (l : List α) :
    ∀ y, maxByKeyLast f l = some y → y ∈ l := by
  induction l with
  | nil => intro y hy; simp [maxByKeyLast] at hy
  | cons x xs ih =>
    intro y hy
    rw [maxByKeyLast_cons] at hy
    cases h : maxByKeyLast f xs with
    | none =>
      rw [h] at hy
      simp only [Option.some.injEq] at hy
      exact hy ▸ List.mem_cons_self _ _
    | some m =>
      rw [h] at hy
      by_cases hf : f m < f x
      · simp only [hf, if_true, Option.some.injEq] at hy
        exact hy ▸ List.mem_cons_self _ _
      · simp only [hf, if_false, Option.some.injEq] at hy
        exact List.mem_cons_of_mem _ (hy ▸ ih m h)

theorem maxByKeyLast_le {α : Type} (f : α → Nat) (l : List α) :
    ∀ y, maxByKeyLast f l = some y → ∀ x ∈ l, f x ≤ f y := by
  induction l with
  | nil => intro y hy; simp [maxByKeyLast] at hy
  | cons x xs ih =>
    intro y hy z hz
    rw [maxByKeyLast_cons] at hy
    cases h : maxByKeyLast f xs with
    | none =>
      rw [h] at hy
      simp only [Option.some.injEq] at hy
      have hxs : xs = [] := (maxByKeyLast_eq_none_iff f xs).mp h
      subst hy
      rcases List.mem_cons.mp hz with hz | hz
      · exact hz ▸ le_refl _
      · rw [hxs] at hz
        simp at hz
    | some m =>
      rw [h] at hy
      by_cases hf : f m < f x
      · simp only [hf, if_true, Option.some.injEq] at hy
        subst hy
        rcases List.mem_cons.mp hz with hz | hz
        · exact hz ▸ le_refl _
        · exact le_trans (ih m h z hz) (le_of_lt hf)
      · simp only [hf, if_false, Option.some.injEq] at hy
        subst hy
        rcases List.mem_cons.mp hz with hz | hz
        · exact hz ▸ not_lt.mp hf
        · exact ih m h z hz

/-- Amended C2: find_authoritative_zone fails exactly when no zone's label
sequence is a suffix of the target's label sequence, and on success it
returns a matching zone whose name byte length is maximal among all
matching zones (the source selects by name length, with ties resolved to
the last listed zone), not necessarily the zone with the most labels. -/
theorem c2_find_authoritative_zone_longest_name (fqdn : String)
    (zones : List DnsZoneHandle) :
    (find_authoritative_zone fqdn zones = none ↔
      ∀ z ∈ zones, zoneMatches fqdn z.name = false) ∧
    ∀ z, find_authoritative_zone fqdn zones = some z →
      z ∈ zones ∧ zoneMatches fqdn z.name = true ∧
      ∀ z2 ∈ zones, zoneMatches fqdn z2.name = true →
        byteLen z2.name ≤ byteLen z.name := by
  constructor
  · rw [find_authoritative_zone, maxByKeyLast_eq_none_iff, List.filter_eq_nil_iff]
    constructor
    · intro h z hz
      have h2 := h z hz
      simpa using h2
    · intro h z hz
      simp [h z hz]
  · intro z hz
    rw [find_authoritative_zone] at hz
    have hmem := maxByKeyLast_mem _ _ z hz
    have hfil := List.mem_filter.mp hmem
    refine ⟨hfil.1, hfil.2, ?_⟩
    intro z2 hz2 hm2
    exact maxByKeyLast_le _ _ z hz z2 (List.mem_filter.mpr ⟨hz2, hm2⟩)

/-- Counterexample to C2 as stated: with zones dot-example-com (a leading
dot, three labels, twelve bytes) and example-com-dot (a trailing dot, two
labels, twelve bytes), both match the name a-dot-dot-example-com, the byte
lengths tie, and the source's selection by name length returns the last
listed zone, which has fewer labels than the other matching zone. -/
theorem c2_counterexample_not_most_labels :
    find_authoritative_zone "a..example.com"
        [⟨"z1", ".example.com"⟩, ⟨"z2", "example.com."⟩] =
      some ⟨"z2", "example.com."⟩ ∧
    zoneMatches "a..example.com" ".example.com" = true ∧
    labelCount ".example.com" = 3 ∧
    labelCount "example.com." = 2 := by
  refine ⟨?_, ?_, ?_, ?_⟩ <;> decide

/-! ### Stop tears DNS down first: C6 -/

theorem stopEventsGo_idx_ge (resolveZone : String → Option Nat)
    (unbindResult : Nat → String → Option String) :
    ∀ (l : List (Option String)) (k : Nat) (ev : StopEvent),
      ev ∈ (stopEventsGo resolveZone unbindResult k l).1 → k ≤ ev.instIdx := by
  intro l
  induction l with
  | nil => intro k ev h; simp [stopEventsGo] at h
  | cons fq rest ih =>
    intro k ev h
    cases fq with
    | none =>
      simp only [stopEventsGo, List.mem_cons] at h
      rcases h with h | h
      · simp [h, StopEvent.instIdx]
      · exact le_trans (by omega) (ih (k + 1) ev h)
    | some f0 =>
      cases hr : resolveZone f0 with
      | none => simp [stopEventsGo, hr] at h
      | some z =>
        cases hu : unbindResult z f0 with
        | some e =>
          simp only [stopEventsGo, hr, hu, List.mem_cons, List.not_mem_nil, or_false] at h
          simp [h, StopEvent.instIdx]
        | none =>
          simp only [stopEventsGo, hr, hu, List.mem_cons] at h
          rcases h with h | h | h
          · simp [h, StopEvent.instIdx]
          · simp [h, StopEvent.instIdx]
          · exact le_trans (by omega) (ih (k + 1) ev h)

theorem stopEventsGo_unbind_before (resolveZone : String → Option Nat)
    (unbindResult : Nat → String → Option String) :
    ∀ (l : List (Option String)) (k j : Nat) (f : String),
      l.get? j = some (some f) →
      ∀ n, (stopEventsGo resolveZone unbindResult k l).1.get? n =
          some (StopEvent.ensureStopped (k + j)) →
        ∃ m, m < n ∧ (stopEventsGo resolveZone unbindResult k l).1.get? m =
          some (StopEvent.syncDnsUnbind (k + j) f) := by
  intro l
  induction l with
  | nil => intro k j f hj; simp at hj
  | cons fq rest ih =>
    intro k j f hj n hn
    cases fq with
    | none =>
      simp only [stopEventsGo] at hn ⊢
      cases j with
      | zero => simp at hj
      | succ j2 =>
        have hj2 : rest.get? j2 = some (some f) := by simpa using hj
        have he : k + (j2 + 1) = (k + 1) + j2 := by omega
        cases n with
        | zero =>
          simp only [List.get?_cons_zero, Option.some.injEq, StopEvent.ensureStopped.injEq] at hn
          omega
        | succ n2 =>
          simp only [List.get?_cons_succ] at hn
          rw [he] at hn
          obtain ⟨m, hm, hmev⟩ := ih (k + 1) j2 f hj2 n2 hn
          refine ⟨m + 1, by omega, ?_⟩
          simpa [he] using hmev
    | some f0 =>
      cases hr : resolveZone f0 with
      | none => simp [stopEventsGo, hr] at hn
      | some z =>
        cases hu : unbindResult z f0 with
        | some e =>
          simp only [stopEventsGo, hr, hu] at hn
          rcases n with _ | n2 <;> simp at hn
        | none =>
          simp only [stopEventsGo, hr, hu] at hn ⊢
          cases j with
          | zero =>
            have hf : f0 = f := by simpa using hj
            cases n with
            | zero => simp at hn
            | succ n2 =>
              cases n2 with
              | zero =>
                refine ⟨0, by omega, ?_⟩
                simp [hf]
              | succ n3 =>
                simp only [List.get?_cons_succ] at hn
                have hmem : StopEvent.ensureStopped (k + 0) ∈
                    (stopEventsGo resolveZone unbindResult (k + 1) rest).1 :=
                  List.get?_mem hn
                have hge := stopEventsGo_idx_ge resolveZone unbindResult rest (k + 1) _ hmem
                simp only [StopEvent.instIdx] at hge
                omega
          | succ j2 =>
            have hj2 : rest.get? j2 = some (some f) := by simpa using hj
            have he : k + (j2 + 1) = (k + 1) + j2 := by omega
            cases n with
            | zero => simp at hn
            | succ n2 =>
              cases n2 with
              | zero =>
                simp only [List.get?_cons_succ, List.get?_cons_zero, Option.some.injEq,
                  StopEvent.ensureStopped.injEq] at hn
                omega
              | succ n3 =>
                simp only [List.get?_cons_succ] at hn
                rw [he] at hn
                obtain ⟨m, hm, hmev⟩ := ih (k + 1) j2 f hj2 n3 hn
                refine ⟨m + 2, by omega, ?_⟩
                simpa [he] using hmev

theorem stopEventsGo_fail_no_stop (resolveZone : String → Option Nat)
    (unbindResult : Nat → String → Option String) :
    ∀ (l : List (Option String)) (k j : Nat) (f : String),
      l.get? j = some (some f) →
      (resolveZone f = none ∨ ∃ z, resolveZone f = some z ∧ unbindResult z f ≠ none) →
      StopEvent.ensureStopped (k + j) ∉ (stopEventsGo resolveZone unbindResult k l).1 := by
  intro l
  induction l with
  | nil => intro k j f hj _; simp at hj
  | cons fq rest ih =>
    intro k j f hj hfail
    cases fq with
    | none =>
      cases j with
      | zero => simp at hj
      | succ j2 =>
        have hj2 : rest.get? j2 = some (some f) := by simpa using hj
        have he : k + (j2 + 1) = (k + 1) + j2 := by omega
        simp only [stopEventsGo, List.mem_cons, not_or]
        constructor
        · intro h
          have := StopEvent.ensureStopped.inj h
          omega
        · rw [he]
          exact ih (k + 1) j2 f hj2 hfail
    | some f0 =>
      cases hr : resolveZone f0 with
      | none => simp [stopEventsGo, hr]
      | some z =>
        cases hu : unbindResult z f0 with
        | some e => simp [stopEventsGo, hr, hu]
        | none =>
          cases j with
          | zero =>
            have hf : f0 = f := by simpa using hj
            subst hf
            rcases hfail with hfail | ⟨z2, hz2, hu2⟩
            · rw [hr] at hfail
              simp at hfail
            · rw [hr] at hz2
              have hz3 : z = z2 := by simpa using hz2
              rw [← hz3] at hu2
              exact absurd hu hu2
          | succ j2 =>
            have hj2 : rest.get? j2 = some (some f) := by simpa using hj
            have he : k + (j2 + 1) = (k + 1) + j2 := by omega
            simp only [stopEventsGo, hr, hu, List.mem_cons, not_or]
            refine ⟨by simp, ?_, ?_⟩
            · intro h
              have := StopEvent.ensureStopped.inj h
              omega
            · rw [he]
              exact ih (k + 1) j2 f hj2 hfail

/-- C6: in the Stop arm of dispatch, for every targeted instance that
declares an FQDN, the sync_dns unbind of that FQDN occurs strictly before
the ensure_stopped call for that instance in the capability-call trace, and
when zone resolution or the unbind itself fails, ensure_stopped is never
invoked for that instance (the failure aborts the dispatch first). -/
theorem c6_stop_unbinds_dns_before_stopping (resolveZone : String → Option Nat)
    (unbindResult : Nat → String → Option String) (fqdns : List (Option String))
    (j : Nat) (f : String) (hj : fqdns.get? j = some (some f)) :
    (∀ n, (stopEvents resolveZone unbindResult fqdns).1.get? n =
        some (StopEvent.ensureStopped j) →
      ∃ m, m < n ∧ (stopEvents resolveZone unbindResult fqdns).1.get? m =
        some (StopEvent.syncDnsUnbind j f)) ∧
    ((resolveZone f = none ∨ ∃ z, resolveZone f = some z ∧ unbindResult z f ≠ none) →
      StopEvent.ensureStopped j ∉ (stopEvents resolveZone unbindResult fqdns).1) := by
  constructor
  · intro n hn
    have h := stopEventsGo_unbind_before resolveZone unbindResult fqdns 0 j f hj n
      (by simpa [stopEvents] using hn)
    simpa [stopEvents] using h
  · intro hfail
    have h := stopEventsGo_fail_no_stop resolveZone unbindResult fqdns 0 j f hj hfail
    simpa [stopEvents] using h

/-- Witness for C6 on a one-instance Stop whose resolution and unbind
succeed: the unbind call is the first event of the trace. -/
theorem c6_witness :
    (stopEvents (fun _ => some 0) (fun _ _ => none) [some "inst.example.com"]).1.get? 0 =
      some (StopEvent.syncDnsUnbind 0 "inst.example.com") := by
  have h := c6_stop_unbinds_dns_before_stopping (fun _ => some 0) (fun _ _ => none)
    [some "inst.example.com"] 0 "inst.example.com" rfl
  obtain ⟨m, hm, hev⟩ := h.1 1 (by decide)
  have hm0 : m = 0 := by omega
  exact hm0 ▸ hev

/-! ### Unmatched names are silently ignored: C10 -/

theorem goSteps_skip (step : MemState → Nat → List MOp × Option String) (s : MemState)
    (idxs : List Nat) (h : ∀ i ∈ idxs, step s i = ([], none)) :
    goSteps step s idxs = ([], none) := by
  induction idxs with
  | nil => rfl
  | cons i rest ih =>
    have hi := h i (List.mem_cons_self _ _)
    have ihr := ih (fun i2 hi2 => h i2 (List.mem_cons_of_mem _ hi2))
    simp [goSteps, hi, applyOps, ihr]

/-- C10: dispatching any command whose name list matches no existing
firewall or instance returns success and leaves all cloud and DNS state
unchanged; a name matching nothing is silently ignored, never an error. -/
theorem c10_unmatched_names_are_ignored (cmd : Command) (s : MemState)
    (h : noTargets cmd s) : dispatch cmd s = (s, none) := by
  cases cmd with
  | openCmd cs ps names =>
    have hstep : ∀ i ∈ List.range s.firewalls.length,
        fwStep (desiredRulesOpen cs ps) names s i = ([], none) := by
      intro i _
      rw [fwStep]
      cases hg : s.firewalls.get? i with
      | none => rfl
      | some fw => simp [h fw (List.get?_mem hg)]
    simp [dispatch, commandTrace, goSteps_skip _ _ _ hstep, applyOps]
  | closeCmd names =>
    have hstep : ∀ i ∈ List.range s.firewalls.length,
        fwStep ∅ names s i = ([], none) := by
      intro i _
      rw [fwStep]
      cases hg : s.firewalls.get? i with
      | none => rfl
      | some fw => simp [h fw (List.get?_mem hg)]
    simp [dispatch, commandTrace, goSteps_skip _ _ _ hstep, applyOps]
  | startCmd ty names =>
    have hstep : ∀ i ∈ List.range s.instances.length,
        startStep ty names s i = ([], none) := by
      intro i _
      rw [startStep]
      cases hg : s.instances.get? i with
      | none => rfl
      | some inst => simp [h inst (List.get?_mem hg)]
    simp [dispatch, commandTrace, goSteps_skip _ _ _ hstep, applyOps]
  | stopCmd names =>
    have hstep : ∀ i ∈ List.range s.instances.length,
        stopStep names s i = ([], none) := by
      intro i _
      rw [stopStep]
      cases hg : s.instances.get? i with
      | none => rfl
      | some inst => simp [h inst (List.get?_mem hg)]
    simp [dispatch, commandTrace, goSteps_skip _ _ _ hstep, applyOps]

/-- Witness for C10: stopping a name that matches nothing succeeds and
changes nothing. -/
theorem c10_witness :
    dispatch (Command.stopCmd ["missing"]) ⟨[], [], []⟩ = (⟨[], [], []⟩, none) :=
  c10_unmatched_names_are_ignored (Command.stopCmd ["missing"]) ⟨[], [], []⟩
    (by intro inst hmem; simp at hmem)

/-! ### Idempotence machinery: list-update lemmas -/

theorem updAt_length {α : Type} (g : α → α) : ∀ (l : List α) (n : Nat),
    (updAt n g l).length = l.length := by
  intro l
  induction l with
  | nil => intro n; cases n <;> rfl
  | cons x xs ih =>
    intro n
    cases n with
    | zero => rfl
    | succ m => simp [updAt, ih m]

theorem updAt_get?_self {α : Type} (g : α → α) : ∀ (l : List α) (n : Nat),
    (updAt n g l).get? n = (l.get? n).map g := by
  intro l
  induction l with
  | nil => intro n; cases n <;> rfl
  | cons x xs ih =>
    intro n
    cases n with
    | zero => rfl
    | succ m => simpa [updAt] using ih m

theorem updAt_get?_ne {α : Type} (g : α → α) : ∀ (l : List α) (n m : Nat), m ≠ n →
    (updAt n g l).get? m = l.get? m := by
  intro l
  induction l with
  | nil => intro n m _; cases n <;> rfl
  | cons x xs ih =>
    intro n m h
    cases n with
    | zero =>
      cases m with
      | zero => exact absurd rfl h
      | succ m2 => rfl
    | succ n2 =>
      cases m with
      | zero => rfl
      | succ m2 => simpa [updAt] using ih n2 m2 (fun e => h (by omega))

theorem updAt_comp {α : Type} (g g2 : α → α) : ∀ (l : List α) (n : Nat),
    updAt n g (updAt n g2 l) = updAt n (fun x => g (g2 x)) l := by
  intro l
  induction l with
  | nil => intro n; cases n <;> rfl
  | cons x xs ih =>
    intro n
    cases n with
    | zero => rfl
    | succ m => simp [updAt, ih m]

theorem updAt_comm {α : Type} (g g2 : α → α) : ∀ (l : List α) (n m : Nat), n ≠ m →
    updAt n g (updAt m g2 l) = updAt m g2 (updAt n g l) := by
  intro l
  induction l with
  | nil => intro n m _; cases n <;> cases m <;> rfl
  | cons x xs ih =>
    intro n m h
    cases n with
    | zero =>
      cases m with
      | zero => exact absurd rfl h
      | succ m2 => rfl
    | succ n2 =>
      cases m with
      | zero => rfl
      | succ m2 => simp [updAt, ih n2 m2 (fun e => h (by omega))]

theorem map_updAt {α β : Type} (f : α → β) (g : α → α) (h : ∀ x, f (g x) = f x) :
    ∀ (l : List α) (n : Nat), (updAt n g l).map f = l.map f := by
  intro l
  induction l with
  | nil => intro n; cases n <;> rfl
  | cons x xs ih =>
    intro n
    cases n with
    | zero => simp [updAt, h x]
    | succ m => simp [updAt, ih m]

theorem mem_updAt {α : Type} (g : α → α) : ∀ (l : List α) (n : Nat) (x : α),
    x ∈ updAt n g l → x ∈ l ∨ ∃ y ∈ l, x = g y := by
  intro l
  induction l with
  | nil => intro n x h; cases n <;> simp [updAt] at h
  | cons a xs ih =>
    intro n x h
    cases n with
    | zero =>
      rcases List.mem_cons.mp h with h | h
      · exact Or.inr ⟨a, List.mem_cons_self _ _, h⟩
      · exact Or.inl (List.mem_cons_of_mem _ h)
    | succ m =>
      rcases List.mem_cons.mp h with h | h
      · exact Or.inl (h ▸ List.mem_cons_self _ _)
      · rcases ih m x h with h2 | ⟨y, hy, he⟩
        · exact Or.inl (List.mem_cons_of_mem _ h2)
        · exact Or.inr ⟨y, List.mem_cons_of_mem _ hy, he⟩

/-! ### Idempotence machinery: effects of single mutations -/

theorem applyOps_cons (o : MOp) (W : List MOp) (s : MemState) :
    applyOps (o :: W) s = applyOps W (applyOp o s) := rfl

theorem applyOps_append (W1 W2 : List MOp) (s : MemState) :
    applyOps (W1 ++ W2) s = applyOps W2 (applyOps W1 s) := by
  simp [applyOps, List.foldl_append]

theorem applyOp_zones_map_name (o : MOp) (s : MemState) :
    (applyOp o s).zones.map MemDnsZone.name = s.zones.map MemDnsZone.name := by
  cases o with
  | bindRec z f t =>
    simp only [applyOp]
    exact map_updAt MemDnsZone.name
      (fun zn => { zn with records := recInsert f t zn.records }) (fun x => rfl) s.zones z
  | unbindRec z f =>
    simp only [applyOp]
    exact map_updAt MemDnsZone.name
      (fun zn => { zn with records := recRemove f zn.records }) (fun x => rfl) s.zones z
  | syncRules i d => rfl
  | setInstanceType i t => rfl
  | setRunning i b => rfl

theorem applyOps_zones_map_name (W : List MOp) : ∀ s : MemState,
    (applyOps W s).zones.map MemDnsZone.name = s.zones.map MemDnsZone.name := by
  induction W with
  | nil => intro s; rfl
  | cons o W ih =>
    intro s
    rw [applyOps_cons, ih, applyOp_zones_map_name]

theorem applyOp_instances_length (o : MOp) (s : MemState) :
    (applyOp o s).instances.length = s.instances.length := by
  cases o <;> simp [applyOp, updAt_length]

theorem applyOps_instances_length (W : List MOp) : ∀ s : MemState,
    (applyOps W s).instances.length = s.instances.length := by
  induction W with
  | nil => intro s; rfl
  | cons o W ih => intro s; rw [applyOps_cons, ih, applyOp_instances_length]

theorem applyOp_firewalls_length (o : MOp) (s : MemState) :
    (applyOp o s).firewalls.length = s.firewalls.length := by
  cases o <;> simp [applyOp, updAt_length]

theorem applyOps_firewalls_length (W : List MOp) : ∀ s : MemState,
    (applyOps W s).firewalls.length = s.firewalls.length := by
  induction W with
  | nil => intro s; rfl
  | cons o W ih => intro s; rw [applyOps_cons, ih, applyOp_firewalls_length]

theorem applyOp_instances_get?_of_ne (o : MOp) (s : MemState) (i : Nat)
    (h : o.instTarget ≠ some i) :
    (applyOp o s).instances.get? i = s.instances.get? i := by
  cases o with
  | setInstanceType j t =>
    have hj : i ≠ j := by
      intro e
      exact h (by simp [MOp.instTarget, e])
    simp only [applyOp]
    exact updAt_get?_ne _ _ _ _ hj
  | setRunning j b =>
    have hj : i ≠ j := by
      intro e
      exact h (by simp [MOp.instTarget, e])
    simp only [applyOp]
    exact updAt_get?_ne _ _ _ _ hj
  | syncRules j d => rfl
  | bindRec z f t => rfl
  | unbindRec z f => rfl

theorem applyOps_instances_get?_of_forall (W : List MOp) : ∀ (s : MemState) (i : Nat),
    (∀ o ∈ W, o.instTarget ≠ some i) →
    (applyOps W s).instances.get? i = s.instances.get? i := by
  induction W with
  | nil => intro s i _; rfl
  | cons o W ih =>
    intro s i h
    rw [applyOps_cons, ih _ i (fun o2 h2 => h o2 (List.mem_cons_of_mem _ h2)),
      applyOp_instances_get?_of_ne o s i (h o (List.mem_cons_self _ _))]

theorem applyOp_firewalls_get?_map_name (o : MOp) (s : MemState) (i : Nat) :
    ((applyOp o s).firewalls.get? i).map MemFirewall.name =
      (s.firewalls.get? i).map MemFirewall.name := by
  cases o with
  | syncRules j d =>
    by_cases hj : i = j
    · subst hj
      simp only [applyOp]
      rw [updAt_get?_self]
      cases s.firewalls.get? i <;> rfl
    · simp only [applyOp]
      rw [updAt_get?_ne _ _ _ _ hj]
  | setInstanceType j t => rfl
  | setRunning j b => rfl
  | bindRec z f t => rfl
  | unbindRec z f => rfl

theorem applyOps_firewalls_get?_map_name (W : List MOp) : ∀ (s : MemState) (i : Nat),
    ((applyOps W s).firewalls.get? i).map MemFirewall.name =
      (s.firewalls.get? i).map MemFirewall.name := by
  induction W with
  | nil => intro s i; rfl
  | cons o W ih =>
    intro s i
    rw [applyOps_cons, ih, applyOp_firewalls_get?_map_name]

theorem applyOp_wf (o : MOp) (s : MemState) (h : MemWF s) : MemWF (applyOp o s) := by
  cases o with
  | syncRules i d => exact h
  | setInstanceType i t => exact h
  | setRunning i b => exact h
  | bindRec z f t =>
    intro zn hzn
    rcases mem_updAt _ s.zones z zn hzn with h2 | ⟨y, hy, he⟩
    · exact h zn h2
    · exact he ▸ recInsert_recWF f t y.records (h y hy)
  | unbindRec z f =>
    intro zn hzn
    rcases mem_updAt _ s.zones z zn hzn with h2 | ⟨y, hy, he⟩
    · exact h zn h2
    · exact he ▸ recRemove_recWF f y.records (h y hy)

theorem applyOps_wf (W : List MOp) : ∀ s : MemState, MemWF s → MemWF (applyOps W s) := by
  induction W with
  | nil => intro s h; exact h
  | cons o W ih => intro s h; exact ih _ (applyOp_wf o s h)

/-! ### Idempotence machinery: record-map algebra -/

theorem strLt_resolve (a b : String) (hne : a ≠ b) (hnlt : ¬ a < b) : b < a := by
  rcases lt_trichotomy a b with h | h | h
  · exact absurd h hnlt
  · exact absurd h hne
  · exact h

theorem recInsert_of_lt_all (f : String) (t : DnsTarget) (l : List (String × DnsTarget))
    (h : ∀ q ∈ l, f < q.1) : recInsert f t l = (f, t) :: l := by
  cases l with
  | nil => rfl
  | cons kv rest =>
    obtain ⟨k, v⟩ := kv
    have hk : f < k := h (k, v) (List.mem_cons_self _ _)
    rw [recInsert_cons, if_neg (ne_of_lt hk), if_pos hk]

theorem recRemove_of_all_ne (f : String) (l : List (String × DnsTarget))
    (h : ∀ q ∈ l, q.1 ≠ f) : recRemove f l = l := by
  induction l with
  | nil => rfl
  | cons kv rest ih =>
    obtain ⟨k, v⟩ := kv
    rw [recRemove_cons, if_neg (h (k, v) (List.mem_cons_self _ _)),
      ih (fun q hq => h q (List.mem_cons_of_mem _ hq))]

theorem recRemove_recInsert_of_all_ne (f f2 : String) (t : DnsTarget)
    (l : List (String × DnsTarget)) (hne : f ≠ f2) (h : ∀ q ∈ l, q.1 ≠ f2) :
    recRemove f2 (recInsert f t l) = recInsert f t l := by
  apply recRemove_of_all_ne
  intro q hq
  rcases recInsert_mem f t l q hq with hq2 | hq2
  · rw [hq2]
    exact hne
  · exact h q hq2

theorem recInsert_recInsert (f : String) (t1 t2 : DnsTarget) :
    ∀ l : List (String × DnsTarget), recInsert f t2 (recInsert f t1 l) = recInsert f t2 l := by
  intro l
  induction l with
  | nil => simp [recInsert]
  | cons kv rest ih =>
    obtain ⟨k, v⟩ := kv
    rw [recInsert_cons f k t1 v rest, recInsert_cons f k t2 v rest]
    by_cases h1 : f = k
    · rw [if_pos h1, if_pos h1, recInsert_cons, if_pos rfl]
    · rw [if_neg h1, if_neg h1]
      by_cases h2 : f < k
      · rw [if_pos h2, if_pos h2, recInsert_cons, if_pos rfl]
      · rw [if_neg h2, if_neg h2, recInsert_cons, if_neg h1, if_neg h2, ih]

theorem recRemove_recInsert (f : String) (t : DnsTarget) :
    ∀ l : List (String × DnsTarget), recRemove f (recInsert f t l) = recRemove f l := by
  intro l
  induction l with
  | nil => simp [recInsert, recRemove]
  | cons kv rest ih =>
    obtain ⟨k, v⟩ := kv
    by_cases h1 : f = k
    · rw [recInsert_cons, if_pos h1, recRemove_cons, if_pos rfl, recRemove_cons,
        if_pos h1.symm]
    · have hkf : ¬ k = f := fun e => h1 e.symm
      by_cases h2 : f < k
      · rw [recInsert_cons, if_neg h1, if_pos h2, recRemove_cons, if_pos rfl]
      · rw [recInsert_cons, if_neg h1, if_neg h2, recRemove_cons, if_neg hkf, ih,
          recRemove_cons, if_neg hkf]

theorem recRemove_recRemove (f : String) (l : List (String × DnsTarget)) :
    recRemove f (recRemove f l) = recRemove f l := by
  induction l with
  | nil => rfl
  | cons kv rest ih =>
    obtain ⟨k, v⟩ := kv
    rw [recRemove_cons]
    by_cases h1 : k = f
    · rw [if_pos h1, ih]
    · rw [if_neg h1, recRemove_cons, if_neg h1, ih]

theorem recRemove_comm (f f2 : String) (l : List (String × DnsTarget)) :
    recRemove f2 (recRemove f l) = recRemove f (recRemove f2 l) := by
  induction l with
  | nil => rfl
  | cons kv rest ih =>
    obtain ⟨k, v⟩ := kv
    rw [recRemove_cons, recRemove_cons]
    by_cases h1 : k = f <;> by_cases h2 : k = f2
    · rw [if_pos h1, if_pos h2, ih]
    · rw [if_pos h1, if_neg h2, recRemove_cons, if_pos h1, ih]
    · rw [if_neg h1, if_pos h2, recRemove_cons, if_pos h2, ih]
    · rw [if_neg h1, if_neg h2, recRemove_cons, recRemove_cons, if_neg h1, if_neg h2, ih]

theorem recInsert_recRemove_of_recWF (f : String) (t : DnsTarget) :
    ∀ l : List (String × DnsTarget), RecWF l →
      recInsert f t (recRemove f l) = recInsert f t l := by
  intro l
  induction l with
  | nil => intro _; rfl
  | cons kv rest ih =>
    obtain ⟨k, v⟩ := kv
    intro hwf
    rcases List.pairwise_cons.mp hwf with ⟨hk, hrest⟩
    rw [recRemove_cons]
    by_cases h1 : k = f
    · rw [if_pos h1]
      have hrr : recRemove f rest = rest :=
        recRemove_of_all_ne f rest (fun q hq => (ne_of_lt (h1 ▸ hk q hq)).symm)
      have hins : recInsert f t rest = (f, t) :: rest :=
        recInsert_of_lt_all f t rest (fun q hq => h1 ▸ hk q hq)
      rw [hrr, hins, recInsert_cons, if_pos h1.symm]
    · rw [if_neg h1]
      by_cases h2 : f < k
      · have hrr : recRemove f rest = rest :=
          recRemove_of_all_ne f rest
            (fun q hq => (ne_of_lt (lt_trans h2 (hk q hq))).symm)
        rw [recInsert_cons, recInsert_cons, if_neg (fun e => h1 e.symm), if_pos h2,
          if_neg (fun e => h1 e.symm), if_pos h2, hrr]
      · have hkf : k < f := strLt_resolve f k (fun e => h1 e.symm) h2
        rw [recInsert_cons, recInsert_cons, if_neg (fun e => h1 e.symm), if_neg h2,
          if_neg (fun e => h1 e.symm), if_neg h2, ih hrest]

theorem recLookup_eq_none_of_all_ne (f : String) (l : List (String × DnsTarget))
    (h : ∀ q ∈ l, q.1 ≠ f) : recLookup f l = none := by
  induction l with
  | nil => rfl
  | cons kv rest ih =>
    obtain ⟨k, v⟩ := kv
    rw [recLookup_cons, if_neg (h (k, v) (List.mem_cons_self _ _))]
    exact ih (fun q hq => h q (List.mem_cons_of_mem _ hq))

theorem recWF_ext : ∀ (l l2 : List (String × DnsTarget)), RecWF l → RecWF l2 →
    (∀ f, recLookup f l = recLookup f l2) → l = l2 := by
  intro l
  induction l with
  | nil =>
    intro l2 _ _ h
    cases l2 with
    | nil => rfl
    | cons kv rest =>
      obtain ⟨k, v⟩ := kv
      have h2 := h k
      rw [recLookup_cons, if_pos rfl] at h2
      simp [recLookup] at h2
  | cons kv rest ih =>
    intro l2 hwf1 hwf2 h
    obtain ⟨k, v⟩ := kv
    cases l2 with
    | nil =>
      have h2 := h k
      rw [recLookup_cons, if_pos rfl] at h2
      simp [recLookup] at h2
    | cons kv2 rest2 =>
      obtain ⟨k2, v2⟩ := kv2
      rcases List.pairwise_cons.mp hwf1 with ⟨hk1, hrest1⟩
      rcases List.pairwise_cons.mp hwf2 with ⟨hk2, hrest2⟩
      have hkk : k = k2 := by
        rcases lt_trichotomy k k2 with hlt | he | hlt
        · exfalso
          have hl := h k
          rw [recLookup_cons, if_pos rfl] at hl
          rw [recLookup_cons, if_neg (ne_of_lt hlt).symm,
            recLookup_eq_none_of_all_ne k rest2
              (fun q hq => (ne_of_lt (lt_trans hlt (hk2 q hq))).symm)] at hl
          exact Option.noConfusion hl
        · exact he
        · exfalso
          have hl := h k2
          rw [recLookup_cons, recLookup_cons, if_neg (show ¬ k = k2 from (ne_of_lt hlt).symm),
            if_pos rfl,
            recLookup_eq_none_of_all_ne k2 rest
              (fun q hq => (ne_of_lt (lt_trans hlt (hk1 q hq))).symm)] at hl
          exact Option.noConfusion hl
      subst hkk
      have hvv : v = v2 := by
        have hl := h k
        rw [recLookup_cons, if_pos rfl, recLookup_cons, if_pos rfl] at hl
        exact Option.some.inj hl
      subst hvv
      have htail : ∀ f, recLookup f rest = recLookup f rest2 := by
        intro f
        by_cases hf : f = k
        · subst hf
          rw [recLookup_eq_none_of_all_ne f rest
              (fun q hq => (ne_of_lt (hk1 q hq)).symm),
            recLookup_eq_none_of_all_ne f rest2
              (fun q hq => (ne_of_lt (hk2 q hq)).symm)]
        · have hl := h f
          rw [recLookup_cons, if_neg (fun e => hf e.symm),
            recLookup_cons, if_neg (fun e => hf e.symm)] at hl
          exact hl
      rw [ih rest2 hrest1 hrest2 htail]

theorem recInsert_comm_wf (f f2 : String) (t t2 : DnsTarget)
    (l : List (String × DnsTarget)) (hne : f ≠ f2) (hwf : RecWF l) :
    recInsert f2 t2 (recInsert f t l) = recInsert f t (recInsert f2 t2 l) := by
  apply recWF_ext
  · exact recInsert_recWF _ _ _ (recInsert_recWF _ _ _ hwf)
  · exact recInsert_recWF _ _ _ (recInsert_recWF _ _ _ hwf)
  · intro g
    by_cases hgf : g = f
    · subst hgf
      rw [recLookup_recInsert_ne f2 g t2 _ hne, recLookup_recInsert_self,
        recLookup_recInsert_self]
    · by_cases hgf2 : g = f2
      · subst hgf2
        rw [recLookup_recInsert_self, recLookup_recInsert_ne f g t _ (fun e => hne e.symm),
          recLookup_recInsert_self]
      · rw [recLookup_recInsert_ne f2 g t2 _ hgf2, recLookup_recInsert_ne f g t _ hgf,
          recLookup_recInsert_ne f g t _ hgf, recLookup_recInsert_ne f2 g t2 _ hgf2]

theorem recRemove_recInsert_comm_wf (f f2 : String) (t : DnsTarget)
    (l : List (String × DnsTarget)) (hne : f ≠ f2) (hwf : RecWF l) :
    recRemove f2 (recInsert f t l) = recInsert f t (recRemove f2 l) := by
  apply recWF_ext
  · exact recRemove_recWF _ _ (recInsert_recWF _ _ _ hwf)
  · exact recInsert_recWF _ _ _ (recRemove_recWF _ _ hwf)
  · intro g
    by_cases hgf : g = f
    · subst hgf
      rw [recLookup_recRemove_ne f2 g _ hne, recLookup_recInsert_self,
        recLookup_recInsert_self]
    · by_cases hgf2 : g = f2
      · subst hgf2
        rw [recLookup_recRemove_self, recLookup_recInsert_ne f g t _ hgf,
          recLookup_recRemove_self]
      · rw [recLookup_recRemove_ne f2 g _ hgf2, recLookup_recInsert_ne f g t _ hgf,
          recLookup_recInsert_ne f g t _ hgf, recLookup_recRemove_ne f2 g _ hgf2]

/-! ### Idempotence machinery: absorption and commutation of mutations -/

theorem updAt_congr_mem {α : Type} (g g2 : α → α) (l : List α)
    (h : ∀ x ∈ l, g x = g2 x) : ∀ n, updAt n g l = updAt n g2 l := by
  induction l with
  | nil => intro n; cases n <;> rfl
  | cons x xs ih =>
    intro n
    cases n with
    | zero => simp [updAt, h x (List.mem_cons_self _ _)]
    | succ m => simp [updAt, ih (fun y hy => h y (List.mem_cons_of_mem _ hy)) m]

theorem absorb_op (o1 o2 : MOp) (s : MemState) (hloc : o1.loc = o2.loc)
    (hwf : MemWF s) : applyOp o2 (applyOp o1 s) = applyOp o2 s := by
  cases o1 with
  | syncRules i d =>
    cases o2 with
    | syncRules j d2 =>
      simp only [MOp.loc, MemLoc.fwRules.injEq] at hloc
      subst hloc
      simp only [applyOp]
      rw [updAt_comp]
      congr 1
      apply updAt_congr_mem
      intro fw _
      simp only [union_sdiff_sdiff_eq]
    | setInstanceType j t => simp [MOp.loc] at hloc
    | setRunning j b => simp [MOp.loc] at hloc
    | bindRec z f t => simp [MOp.loc] at hloc
    | unbindRec z f => simp [MOp.loc] at hloc
  | setInstanceType i t =>
    cases o2 with
    | syncRules j d => simp [MOp.loc] at hloc
    | setInstanceType j t2 =>
      simp only [MOp.loc, MemLoc.instType.injEq] at hloc
      subst hloc
      simp only [applyOp]
      rw [updAt_comp]
    | setRunning j b => simp [MOp.loc] at hloc
    | bindRec z f t => simp [MOp.loc] at hloc
    | unbindRec z f => simp [MOp.loc] at hloc
  | setRunning i b =>
    cases o2 with
    | syncRules j d => simp [MOp.loc] at hloc
    | setInstanceType j t => simp [MOp.loc] at hloc
    | setRunning j b2 =>
      simp only [MOp.loc, MemLoc.instRunning.injEq] at hloc
      subst hloc
      simp only [applyOp]
      rw [updAt_comp]
    | bindRec z f t => simp [MOp.loc] at hloc
    | unbindRec z f => simp [MOp.loc] at hloc
  | bindRec z f t =>
    cases o2 with
    | syncRules j d => simp [MOp.loc] at hloc
    | setInstanceType j t2 => simp [MOp.loc] at hloc
    | setRunning j b => simp [MOp.loc] at hloc
    | bindRec z2 f2 t2 =>
      simp only [MOp.loc, MemLoc.record.injEq] at hloc
      obtain ⟨hz, hf⟩ := hloc
      subst hz
      subst hf
      simp only [applyOp]
      rw [updAt_comp]
      congr 1
      apply updAt_congr_mem
      intro zn _
      simp [recInsert_recInsert]
    | unbindRec z2 f2 =>
      simp only [MOp.loc, MemLoc.record.injEq] at hloc
      obtain ⟨hz, hf⟩ := hloc
      subst hz
      subst hf
      simp only [applyOp]
      rw [updAt_comp]
      congr 1
      apply updAt_congr_mem
      intro zn _
      simp [recRemove_recInsert]
  | unbindRec z f =>
    cases o2 with
    | syncRules j d => simp [MOp.loc] at hloc
    | setInstanceType j t2 => simp [MOp.loc] at hloc
    | setRunning j b => simp [MOp.loc] at hloc
    | bindRec z2 f2 t2 =>
      simp only [MOp.loc, MemLoc.record.injEq] at hloc
      obtain ⟨hz, hf⟩ := hloc
      subst hz
      subst hf
      simp only [applyOp]
      rw [updAt_comp]
      congr 1
      apply updAt_congr_mem
      intro zn hzn
      simp [recInsert_recRemove_of_recWF f t2 zn.records (hwf zn hzn)]
    | unbindRec z2 f2 =>
      simp only [MOp.loc, MemLoc.record.injEq] at hloc
      obtain ⟨hz, hf⟩ := hloc
      subst hz
      subst hf
      simp only [applyOp]
      rw [updAt_comp]
      congr 1
      apply updAt_congr_mem
      intro zn _
      simp [recRemove_recRemove]

theorem commute_op (o1 o2 : MOp) (s : MemState) (hloc : o1.loc ≠ o2.loc)
    (hwf : MemWF s) : applyOp o2 (applyOp o1 s) = applyOp o1 (applyOp o2 s) := by
  cases o1 with
  | syncRules i d =>
    cases o2 with
    | syncRules j d2 =>
      simp only [MOp.loc, ne_eq, MemLoc.fwRules.injEq] at hloc
      simp only [applyOp]
      congr 1
      exact updAt_comm _ _ _ _ _ (fun e => hloc e.symm)
    | setInstanceType j t => rfl
    | setRunning j b => rfl
    | bindRec z f t => rfl
    | unbindRec z f => rfl
  | setInstanceType i t =>
    cases o2 with
    | syncRules j d => rfl
    | setInstanceType j t2 =>
      simp only [MOp.loc, ne_eq, MemLoc.instType.injEq] at hloc
      simp only [applyOp]
      congr 1
      exact updAt_comm _ _ _ _ _ (fun e => hloc e.symm)
    | setRunning j b =>
      by_cases hij : i = j
      · subst hij
        simp only [applyOp]
        rw [updAt_comp, updAt_comp]
      · simp only [applyOp]
        congr 1
        exact updAt_comm _ _ _ _ _ (fun e => hij e.symm)
    | bindRec z f t => rfl
    | unbindRec z f => rfl
  | setRunning i b =>
    cases o2 with
    | syncRules j d => rfl
    | setInstanceType j t =>
      by_cases hij : i = j
      · subst hij
        simp only [applyOp]
        rw [updAt_comp, updAt_comp]
      · simp only [applyOp]
        congr 1
        exact updAt_comm _ _ _ _ _ (fun e => hij e.symm)
    | setRunning j b2 =>
      simp only [MOp.loc, ne_eq, MemLoc.instRunning.injEq] at hloc
      simp only [applyOp]
      congr 1
      exact updAt_comm _ _ _ _ _ (fun e => hloc e.symm)
    | bindRec z f t => rfl
    | unbindRec z f => rfl
  | bindRec z f t =>
    cases o2 with
    | syncRules j d => rfl
    | setInstanceType j t2 => rfl
    | setRunning j b => rfl
    | bindRec z2 f2 t2 =>
      by_cases hz : z = z2
      · subst hz
        simp only [MOp.loc, ne_eq, MemLoc.record.injEq, true_and] at hloc
        simp only [applyOp]
        congr 1
        rw [updAt_comp, updAt_comp]
        apply updAt_congr_mem
        intro zn hzn
        have h := recInsert_comm_wf f f2 t t2 zn.records hloc (hwf zn hzn)
        simp [h]
      · simp only [applyOp]
        congr 1
        exact updAt_comm _ _ _ _ _ (fun e => hz e.symm)
    | unbindRec z2 f2 =>
      by_cases hz : z = z2
      · subst hz
        simp only [MOp.loc, ne_eq, MemLoc.record.injEq, true_and] at hloc
        simp only [applyOp]
        congr 1
        rw [updAt_comp, updAt_comp]
        apply updAt_congr_mem
        intro zn hzn
        have h := recRemove_recInsert_comm_wf f f2 t zn.records hloc (hwf zn hzn)
        simp [h]
      · simp only [applyOp]
        congr 1
        exact updAt_comm _ _ _ _ _ (fun e => hz e.symm)
  | unbindRec z f =>
    cases o2 with
    | syncRules j d => rfl
    | setInstanceType j t2 => rfl
    | setRunning j b => rfl
    | bindRec z2 f2 t2 =>
      by_cases hz : z = z2
      · subst hz
        simp only [MOp.loc, ne_eq, MemLoc.record.injEq, true_and] at hloc
        simp only [applyOp]
        congr 1
        rw [updAt_comp, updAt_comp]
        apply updAt_congr_mem
        intro zn hzn
        have h := recRemove_recInsert_comm_wf f2 f t2 zn.records
          (fun e => hloc e.symm) (hwf zn hzn)
        simp [h]
      · simp only [applyOp]
        congr 1
        exact updAt_comm _ _ _ _ _ (fun e => hz e.symm)
    | unbindRec z2 f2 =>
      by_cases hz : z = z2
      · subst hz
        simp only [applyOp]
        congr 1
        rw [updAt_comp, updAt_comp]
        apply updAt_congr_mem
        intro zn hzn
        have h := recRemove_comm f f2 zn.records
        simp [h]
      · simp only [applyOp]
        congr 1
        exact updAt_comm _ _ _ _ _ (fun e => hz e.symm)

theorem applyOps_push (W : List MOp) : ∀ (o : MOp) (s : MemState), MemWF s →
    applyOps W (applyOp o s) =
      if writesTo W o.loc then applyOps W s else applyOp o (applyOps W s) := by
  induction W with
  | nil =>
    intro o s _
    simp [applyOps, writesTo]
  | cons o2 W ih =>
    intro o s hwf
    have hmem : writesTo (o2 :: W) o.loc ↔ (o.loc = o2.loc ∨ writesTo W o.loc) := by
      simp [writesTo]
    by_cases hl : o.loc = o2.loc
    · have habs : applyOp o2 (applyOp o s) = applyOp o2 s := absorb_op o o2 s hl hwf
      rw [applyOps_cons, applyOps_cons, habs]
      rw [if_pos (hmem.mpr (Or.inl hl))]
    · have hcom : applyOp o2 (applyOp o s) = applyOp o (applyOp o2 s) :=
        commute_op o o2 s hl hwf
      rw [applyOps_cons, applyOps_cons, hcom, ih o (applyOp o2 s) (applyOp_wf o2 s hwf)]
      by_cases hw : writesTo W o.loc
      · rw [if_pos hw, if_pos (hmem.mpr (Or.inr hw))]
      · rw [if_neg hw, if_neg (fun h => by
          rcases hmem.mp h with h2 | h2
          · exact hl h2
          · exact hw h2)]

theorem applyOps_idem (W : List MOp) : ∀ s : MemState, MemWF s →
    applyOps W (applyOps W s) = applyOps W s := by
  induction W with
  | nil => intro s _; rfl
  | cons o W ih =>
    intro s hwf
    have hwf_t : MemWF (applyOp o s) := applyOp_wf o s hwf
    have hwf_u : MemWF (applyOps W (applyOp o s)) := applyOps_wf W _ hwf_t
    rw [applyOps_cons, applyOps_cons]
    rw [applyOps_push W o (applyOps W (applyOp o s)) hwf_u]
    rw [ih (applyOp o s) hwf_t]
    by_cases hw : writesTo W o.loc
    · rw [if_pos hw]
    · rw [if_neg hw]
      rw [applyOps_push W o s hwf, if_neg hw]
      exact absorb_op o o (applyOps W s) rfl (applyOps_wf W s hwf)

/-! ### Idempotence machinery: what each dispatch iteration observes -/

theorem applyOp_instances_get?_map {β : Type} (f : MemInstance → β)
    (hf1 : ∀ (inst : MemInstance) (t : String), f { inst with instance_type := t } = f inst)
    (hf2 : ∀ (inst : MemInstance) (b : Bool), f { inst with is_running := b } = f inst)
    (o : MOp) (s : MemState) (i : Nat) :
    ((applyOp o s).instances.get? i).map f = (s.instances.get? i).map f := by
  cases o with
  | setInstanceType j t =>
    by_cases hij : i = j
    · subst hij
      simp only [applyOp]
      rw [updAt_get?_self]
      cases s.instances.get? i with
      | none => rfl
      | some inst => simp [hf1]
    · simp only [applyOp]
      rw [updAt_get?_ne _ _ _ _ hij]
  | setRunning j b =>
    by_cases hij : i = j
    · subst hij
      simp only [applyOp]
      rw [updAt_get?_self]
      cases s.instances.get? i with
      | none => rfl
      | some inst => simp [hf2]
    · simp only [applyOp]
      rw [updAt_get?_ne _ _ _ _ hij]
  | syncRules j d => rfl
  | bindRec z f2 t => rfl
  | unbindRec z f2 => rfl

theorem applyOps_instances_get?_map {β : Type} (f : MemInstance → β)
    (hf1 : ∀ (inst : MemInstance) (t : String), f { inst with instance_type := t } = f inst)
    (hf2 : ∀ (inst : MemInstance) (b : Bool), f { inst with is_running := b } = f inst)
    (W : List MOp) : ∀ (s : MemState) (i : Nat),
    ((applyOps W s).instances.get? i).map f = (s.instances.get? i).map f := by
  induction W with
  | nil => intro s i; rfl
  | cons o W ih =>
    intro s i
    rw [applyOps_cons, ih, applyOp_instances_get?_map f hf1 hf2]

theorem startStep_congr (ty : Option String) (names : List String) (s s2 : MemState)
    (i : Nat) (h1 : s.instances.get? i = s2.instances.get? i)
    (h2 : s.zones.map MemDnsZone.name = s2.zones.map MemDnsZone.name) :
    startStep ty names s i = startStep ty names s2 i := by
  simp only [startStep]
  rw [h1, h2]

theorem stopStep_congr (names : List String) (s s2 : MemState) (i : Nat)
    (h1 : s.instances.get? i = s2.instances.get? i)
    (h2 : s.zones.map MemDnsZone.name = s2.zones.map MemDnsZone.name) :
    stopStep names s i = stopStep names s2 i := by
  simp only [stopStep]
  rw [h1, h2]

theorem stopStep_applyOps (names : List String) (W : List MOp) (s : MemState) (i : Nat) :
    stopStep names (applyOps W s) i = stopStep names s i := by
  simp only [stopStep]
  rw [applyOps_zones_map_name]
  have hname : ((applyOps W s).instances.get? i).map MemInstance.name =
      (s.instances.get? i).map MemInstance.name :=
    applyOps_instances_get?_map MemInstance.name (fun _ _ => rfl) (fun _ _ => rfl) W s i
  have hfqdn : ((applyOps W s).instances.get? i).map MemInstance.fqdn =
      (s.instances.get? i).map MemInstance.fqdn :=
    applyOps_instances_get?_map MemInstance.fqdn (fun _ _ => rfl) (fun _ _ => rfl) W s i
  cases hg : (applyOps W s).instances.get? i with
  | none =>
    rw [hg] at hname
    cases hg2 : s.instances.get? i with
    | none => rfl
    | some inst =>
      rw [hg2] at hname
      simp at hname
  | some inst =>
    rw [hg] at hname hfqdn
    cases hg2 : s.instances.get? i with
    | none =>
      rw [hg2] at hname
      simp at hname
    | some inst2 =>
      rw [hg2] at hname hfqdn
      simp only [Option.map_some'] at hname hfqdn
      have hn : inst.name = inst2.name := by simpa using hname
      have hf : inst.fqdn = inst2.fqdn := by simpa using hfqdn
      simp [hn, hf]

theorem fwStep_congr (d : Finset IpIngressRule) (names : List String) (s s2 : MemState)
    (i : Nat)
    (h1 : (s.firewalls.get? i).map MemFirewall.name =
      (s2.firewalls.get? i).map MemFirewall.name) :
    fwStep d names s i = fwStep d names s2 i := by
  simp only [fwStep]
  cases hg : s.firewalls.get? i with
  | none =>
    rw [hg] at h1
    cases hg2 : s2.firewalls.get? i with
    | none => rfl
    | some fw2 =>
      rw [hg2] at h1
      simp at h1
  | some fw =>
    rw [hg] at h1
    cases hg2 : s2.firewalls.get? i with
    | none =>
      rw [hg2] at h1
      simp at h1
    | some fw2 =>
      rw [hg2] at h1
      simp only [Option.map_some'] at h1
      have hn : fw.name = fw2.name := by simpa using h1
      simp [hn]

theorem fwStep_applyOps (d : Finset IpIngressRule) (names : List String) (W : List MOp)
    (s : MemState) (i : Nat) :
    fwStep d names (applyOps W s) i = fwStep d names s i :=
  fwStep_congr d names _ s i (applyOps_firewalls_get?_map_name W s i)

/-! ### Idempotence machinery: which instances a trace writes -/

theorem startTail_ops_shape (i : Nat) (inst : MemInstance) (zs : List String)
    (p : List MOp) :
    ∀ o ∈ (startTail i inst zs p).1,
      o ∈ p ∨ o = MOp.setRunning i true ∨ ∃ z f t, o = MOp.bindRec z f t := by
  intro o ho
  rw [startTail] at ho
  cases hf : inst.fqdn with
  | none =>
    simp only [hf] at ho
    rcases List.mem_append.mp ho with h | h
    · exact Or.inl h
    · simp only [List.mem_cons, List.not_mem_nil, or_false] at h
      exact Or.inr (Or.inl h)
  | some f =>
    simp only [hf] at ho
    cases hr : memFindAuthZoneIdx f zs with
    | none =>
      simp only [hr] at ho
      rcases List.mem_append.mp ho with h | h
      · exact Or.inl h
      · simp only [List.mem_cons, List.not_mem_nil, or_false] at h
        exact Or.inr (Or.inl h)
    | some z =>
      simp only [hr] at ho
      rcases List.mem_append.mp ho with h | h
      · rcases List.mem_append.mp h with h2 | h2
        · exact Or.inl h2
        · simp only [List.mem_cons, List.not_mem_nil, or_false] at h2
          exact Or.inr (Or.inl h2)
      · simp only [List.mem_cons, List.not_mem_nil, or_false] at h
        exact Or.inr (Or.inr ⟨z, f, DnsTarget.a inst.ip_addr, h⟩)

theorem startStep_ops_instTarget (ty : Option String) (names : List String) (s : MemState)
    (i : Nat) : ∀ o ∈ (startStep ty names s i).1, ∀ j, o.instTarget = some j → j = i := by
  intro o ho j hj
  rw [startStep] at ho
  cases hg : s.instances.get? i with
  | none =>
    simp only [hg] at ho
    simp at ho
  | some inst =>
    simp only [hg] at ho
    by_cases hn : inst.name ∈ names
    · rw [if_pos hn] at ho
      cases ty with
      | none =>
        rcases startTail_ops_shape i inst _ [] o ho with h | h | ⟨z, f, t, h⟩
        · simp at h
        · rw [h] at hj
          simp [MOp.instTarget] at hj
          omega
        · rw [h] at hj
          simp [MOp.instTarget] at hj
      | some t =>
        replace ho : o ∈ (if inst.instance_type = t
            then startTail i inst (List.map MemDnsZone.name s.zones) [MOp.setInstanceType i t]
            else if inst.is_running = true
              then (([], some "instance must be stopped to change its type") :
                List MOp × Option String)
              else startTail i inst (List.map MemDnsZone.name s.zones)
                [MOp.setInstanceType i t]).1 := ho
        by_cases hteq : inst.instance_type = t
        · rw [if_pos hteq] at ho
          rcases startTail_ops_shape i inst _ [MOp.setInstanceType i t] o ho with h | h | ⟨z, f, t2, h⟩
          · simp only [List.mem_cons, List.not_mem_nil, or_false] at h
            rw [h] at hj
            simp [MOp.instTarget] at hj
            omega
          · rw [h] at hj
            simp [MOp.instTarget] at hj
            omega
          · rw [h] at hj
            simp [MOp.instTarget] at hj
        · rw [if_neg hteq] at ho
          by_cases hrun : inst.is_running
          · rw [if_pos hrun] at ho
            simp at ho
          · rw [if_neg hrun] at ho
            rcases startTail_ops_shape i inst _ [MOp.setInstanceType i t] o ho with h | h | ⟨z, f, t2, h⟩
            · simp only [List.mem_cons, List.not_mem_nil, or_false] at h
              rw [h] at hj
              simp [MOp.instTarget] at hj
              omega
            · rw [h] at hj
              simp [MOp.instTarget] at hj
              omega
            · rw [h] at hj
              simp [MOp.instTarget] at hj
    · rw [if_neg hn] at ho
      simp at ho

theorem stopStep_ops_instTarget (names : List String) (s : MemState)
    (i : Nat) : ∀ o ∈ (stopStep names s i).1, ∀ j, o.instTarget = some j → j = i := by
  intro o ho j hj
  rw [stopStep] at ho
  cases hg : s.instances.get? i with
  | none =>
    simp only [hg] at ho
    simp at ho
  | some inst =>
    simp only [hg] at ho
    by_cases hn : inst.name ∈ names
    · rw [if_pos hn] at ho
      cases hf : inst.fqdn with
      | none =>
        simp only [hf] at ho
        simp only [List.mem_cons, List.not_mem_nil, or_false] at ho
        rw [ho] at hj
        simp [MOp.instTarget] at hj
        omega
      | some f =>
        simp only [hf] at ho
        cases hr : memFindAuthZoneIdx f (s.zones.map MemDnsZone.name) with
        | none =>
          simp only [hr] at ho
          simp at ho
        | some z =>
          simp only [hr] at ho
          simp only [List.mem_cons, List.not_mem_nil, or_false] at ho
          rcases ho with ho | ho
          · rw [ho] at hj
            simp [MOp.instTarget] at hj
          · rw [ho] at hj
            simp [MOp.instTarget] at hj
            omega
    · rw [if_neg hn] at ho
      simp at ho

theorem goSteps_instTarget (step : MemState → Nat → List MOp × Option String)
    (hstep : ∀ (s : MemState) (i : Nat), ∀ o ∈ (step s i).1, ∀ j, o.instTarget = some j → j = i) :
    ∀ (idxs : List Nat) (s : MemState) (o : MOp) (j : Nat),
      o ∈ (goSteps step s idxs).1 → o.instTarget = some j → j ∈ idxs := by
  intro idxs
  induction idxs with
  | nil => intro s o j ho _; simp [goSteps] at ho
  | cons i rest ih =>
    intro s o j ho hj
    rcases hs : step s i with ⟨ops, res⟩
    cases res with
    | some e =>
      rw [goSteps, hs] at ho
      have := hstep s i o (by rw [hs]; exact ho) j hj
      exact this ▸ List.mem_cons_self _ _
    | none =>
      rw [goSteps, hs] at ho
      simp only at ho
      rcases List.mem_append.mp ho with h | h
      · have := hstep s i o (by rw [hs]; exact h) j hj
        exact this ▸ List.mem_cons_self _ _
      · exact List.mem_cons_of_mem _ (ih (applyOps ops s) o j h hj)

/-! ### Idempotence machinery: repeating one iteration is harmless -/

theorem fwStep_replay (d : Finset IpIngressRule) (names : List String) (s : MemState)
    (i : Nat) :
    fwStep d names (applyOps (fwStep d names s i).1 s) i = fwStep d names s i :=
  fwStep_applyOps d names _ s i

theorem stopStep_replay (names : List String) (s : MemState) (i : Nat) :
    stopStep names (applyOps (stopStep names s i).1 s) i = stopStep names s i :=
  stopStep_applyOps names _ s i

theorem startStep_replay_tail (ty : Option String) (names : List String) (s : MemState)
    (i : Nat) (inst instP : MemInstance) (p : List MOp)
    (hr : startStep ty names s i = startTail i inst (s.zones.map MemDnsZone.name) p)
    (hpget : (applyOps p s).instances.get? i = some instP)
    (hpfqdn : instP.fqdn = inst.fqdn)
    (hpip : instP.ip_addr = inst.ip_addr)
    (hstep2 : ∀ s2 : MemState,
      s2.instances.get? i = some { instP with is_running := true } →
      s2.zones.map MemDnsZone.name = s.zones.map MemDnsZone.name →
      startStep ty names s2 i =
        startTail i { instP with is_running := true } (s.zones.map MemDnsZone.name) p) :
    startStep ty names (applyOps (startStep ty names s i).1 s) i = startStep ty names s i := by
  have hwbase : (applyOps (p ++ [MOp.setRunning i true]) s).instances.get? i =
      some { instP with is_running := true } := by
    rw [applyOps_append]
    show (applyOp (MOp.setRunning i true) (applyOps p s)).instances.get? i = _
    simp only [applyOp]
    rw [updAt_get?_self, hpget]
    rfl
  rw [hr]
  cases hf : inst.fqdn with
  | none =>
    have ht : startTail i inst (s.zones.map MemDnsZone.name) p =
        (p ++ [MOp.setRunning i true], none) := by
      simp only [startTail, hf]
    rw [ht]
    have hz : (applyOps (p ++ [MOp.setRunning i true]) s).zones.map MemDnsZone.name =
        s.zones.map MemDnsZone.name := applyOps_zones_map_name _ _
    rw [hstep2 _ hwbase hz]
    simp only [startTail]
    rw [show ({ instP with is_running := true } : MemInstance).fqdn = inst.fqdn from hpfqdn,
      hf]
  | some f =>
    cases hres : memFindAuthZoneIdx f (s.zones.map MemDnsZone.name) with
    | none =>
      have ht : startTail i inst (s.zones.map MemDnsZone.name) p =
          (p ++ [MOp.setRunning i true],
            some ("could not find authoritative DNS zone for: " ++ f)) := by
        simp only [startTail, hf, hres]
      rw [ht]
      have hz : (applyOps (p ++ [MOp.setRunning i true]) s).zones.map MemDnsZone.name =
          s.zones.map MemDnsZone.name := applyOps_zones_map_name _ _
      rw [hstep2 _ hwbase hz]
      simp only [startTail]
      rw [show ({ instP with is_running := true } : MemInstance).fqdn = inst.fqdn from hpfqdn,
        hf]
      simp only [hres]
    | some z =>
      have ht : startTail i inst (s.zones.map MemDnsZone.name) p =
          (p ++ [MOp.setRunning i true] ++ [MOp.bindRec z f (DnsTarget.a inst.ip_addr)],
            none) := by
        simp only [startTail, hf, hres]
      rw [ht]
      have hw : (applyOps (p ++ [MOp.setRunning i true] ++
          [MOp.bindRec z f (DnsTarget.a inst.ip_addr)]) s).instances.get? i =
          some { instP with is_running := true } := by
        rw [applyOps_append]
        show (applyOp (MOp.bindRec z f (DnsTarget.a inst.ip_addr))
          (applyOps (p ++ [MOp.setRunning i true]) s)).instances.get? i = _
        rw [show ∀ s3 : MemState,
            (applyOp (MOp.bindRec z f (DnsTarget.a inst.ip_addr)) s3).instances =
              s3.instances from fun s3 => rfl]
        exact hwbase
      have hz : (applyOps (p ++ [MOp.setRunning i true] ++
          [MOp.bindRec z f (DnsTarget.a inst.ip_addr)]) s).zones.map MemDnsZone.name =
          s.zones.map MemDnsZone.name := applyOps_zones_map_name _ _
      rw [hstep2 _ hw hz]
      simp only [startTail]
      rw [show ({ instP with is_running := true } : MemInstance).fqdn = inst.fqdn from hpfqdn,
        hf]
      simp only [hres]
      rw [show ({ instP with is_running := true } : MemInstance).ip_addr = inst.ip_addr from
        hpip]

theorem startStep_replay (ty : Option String) (names : List String) (s : MemState)
    (i : Nat) :
    startStep ty names (applyOps (startStep ty names s i).1 s) i = startStep ty names s i := by
  cases hg : s.instances.get? i with
  | none =>
    have hr : startStep ty names s i = ([], none) := by
      simp only [startStep, hg]
    rw [hr]
    exact hr
  | some inst =>
    by_cases hn : inst.name ∈ names
    · cases ty with
      | none =>
        have hr : startStep none names s i =
            startTail i inst (s.zones.map MemDnsZone.name) [] := by
          simp only [startStep, hg]
          rw [if_pos hn]
        refine startStep_replay_tail none names s i inst inst [] hr ?_ rfl rfl ?_
        · exact hg
        · intro s2 hs2 hz2
          have hname2 : ({ inst with is_running := true } : MemInstance).name ∈ names := hn
          simp only [startStep, hs2]
          rw [if_pos hname2, hz2]
      | some t =>
        by_cases hteq : inst.instance_type = t
        · have hr : startStep (some t) names s i =
              startTail i inst (s.zones.map MemDnsZone.name) [MOp.setInstanceType i t] := by
            simp only [startStep, hg]
            rw [if_pos hn, if_pos hteq]
          have hpget : (applyOps [MOp.setInstanceType i t] s).instances.get? i =
              some { inst with instance_type := t } := by
            show (applyOp (MOp.setInstanceType i t) s).instances.get? i = _
            simp only [applyOp]
            rw [updAt_get?_self, hg]
            rfl
          refine startStep_replay_tail (some t) names s i inst
            { inst with instance_type := t } [MOp.setInstanceType i t] hr hpget rfl rfl ?_
          intro s2 hs2 hz2
          have hname2 :
              ({ { inst with instance_type := t } with is_running := true } : MemInstance).name
                ∈ names := hn
          simp only [startStep, hs2]
          rw [if_pos hname2, if_pos trivial, hz2]
        · by_cases hrun : inst.is_running
          · have hr : startStep (some t) names s i =
                ([], some "instance must be stopped to change its type") := by
              simp only [startStep, hg]
              rw [if_pos hn, if_neg hteq, if_pos hrun]
            rw [hr]
            exact hr
          · have hr : startStep (some t) names s i =
                startTail i inst (s.zones.map MemDnsZone.name) [MOp.setInstanceType i t] := by
              simp only [startStep, hg]
              rw [if_pos hn, if_neg hteq, if_neg hrun]
            have hpget : (applyOps [MOp.setInstanceType i t] s).instances.get? i =
                some { inst with instance_type := t } := by
              show (applyOp (MOp.setInstanceType i t) s).instances.get? i = _
              simp only [applyOp]
              rw [updAt_get?_self, hg]
              rfl
            refine startStep_replay_tail (some t) names s i inst
              { inst with instance_type := t } [MOp.setInstanceType i t] hr hpget rfl rfl ?_
            intro s2 hs2 hz2
            have hname2 :
                ({ { inst with instance_type := t } with is_running := true } :
                  MemInstance).name ∈ names := hn
            simp only [startStep, hs2]
            rw [if_pos hname2, if_pos trivial, hz2]
    · have hr : startStep ty names s i = ([], none) := by
        simp only [startStep, hg]
        rw [if_neg hn]
      rw [hr]
      exact hr

/-! ### Idempotence machinery: replaying a whole loop -/

theorem goSteps_state_blind (step : MemState → Nat → List MOp × Option String)
    (hstep : ∀ (W : List MOp) (s : MemState) (i : Nat), step (applyOps W s) i = step s i) :
    ∀ (idxs : List Nat) (W : List MOp) (s : MemState),
      goSteps step (applyOps W s) idxs = goSteps step s idxs := by
  intro idxs
  induction idxs with
  | nil => intro W s; rfl
  | cons i rest ih =>
    intro W s
    rcases hs : step s i with ⟨ops, res⟩
    have h2 : step (applyOps W s) i = (ops, res) := (hstep W s i).trans hs
    cases res with
    | some e => rw [goSteps, goSteps, hs, h2]
    | none =>
      rw [goSteps, goSteps, hs, h2]
      simp only
      have hcollapse : applyOps ops (applyOps W s) = applyOps (W ++ ops) s :=
        (applyOps_append W ops s).symm
      rw [hcollapse, ih (W ++ ops) s, ih ops s]

theorem goSteps_replay_start (ty : Option String) (names : List String) :
    ∀ (idxs : List Nat) (s : MemState) (V : List MOp),
      idxs.Nodup →
      (∀ o ∈ V, ∀ j, o.instTarget = some j → j ∉ idxs) →
      goSteps (startStep ty names)
          (applyOps V (applyOps (goSteps (startStep ty names) s idxs).1 s)) idxs =
        goSteps (startStep ty names) s idxs := by
  intro idxs
  induction idxs with
  | nil => intro s V _ _; rfl
  | cons i rest ih =>
    intro s V hnd hV
    have hnd_rest : rest.Nodup := (List.nodup_cons.mp hnd).2
    have hi_rest : i ∉ rest := (List.nodup_cons.mp hnd).1
    rcases hs : startStep ty names s i with ⟨ops, res⟩
    have hops_target : ∀ o ∈ ops, ∀ j, o.instTarget = some j → j = i := by
      intro o ho j hj
      exact startStep_ops_instTarget ty names s i o (by rw [hs]; exact ho) j hj
    cases res with
    | some e =>
      have hfirst : goSteps (startStep ty names) s (i :: rest) = (ops, some e) := by
        rw [goSteps, hs]
      rw [hfirst]
      show goSteps (startStep ty names) (applyOps V (applyOps ops s)) (i :: rest) =
        (ops, some e)
      have hci : (applyOps V (applyOps ops s)).instances.get? i =
          (applyOps ops s).instances.get? i :=
        applyOps_instances_get?_of_forall V _ i
          (fun o ho hcon => hV o ho i hcon (List.mem_cons_self _ _))
      have hz : (applyOps V (applyOps ops s)).zones.map MemDnsZone.name =
          (applyOps ops s).zones.map MemDnsZone.name := applyOps_zones_map_name _ _
      have hrep : startStep ty names (applyOps ops s) i = (ops, some e) := by
        have h0 := startStep_replay ty names s i
        rw [hs] at h0
        exact h0
      have hstep2 : startStep ty names (applyOps V (applyOps ops s)) i = (ops, some e) :=
        (startStep_congr ty names _ _ i hci hz).trans hrep
      rw [goSteps, hstep2]
    | none =>
      rcases hr : goSteps (startStep ty names) (applyOps ops s) rest with ⟨Wr, er⟩
      have hfirst : goSteps (startStep ty names) s (i :: rest) = (ops ++ Wr, er) := by
        rw [goSteps, hs]
        simp only [hr]
      rw [hfirst]
      show goSteps (startStep ty names) (applyOps V (applyOps (ops ++ Wr) s)) (i :: rest) =
        (ops ++ Wr, er)
      have hWr : ∀ o ∈ Wr, o.instTarget ≠ some i := by
        intro o ho hcon
        exact hi_rest (goSteps_instTarget (startStep ty names)
          (fun s2 i2 => startStep_ops_instTarget ty names s2 i2) rest (applyOps ops s) o i
          (by rw [hr]; exact ho) hcon)
      have hdecomp : applyOps (ops ++ Wr) s = applyOps Wr (applyOps ops s) :=
        applyOps_append ops Wr s
      have hci : (applyOps V (applyOps (ops ++ Wr) s)).instances.get? i =
          (applyOps ops s).instances.get? i := by
        rw [hdecomp,
          applyOps_instances_get?_of_forall V _ i
            (fun o ho hcon => hV o ho i hcon (List.mem_cons_self _ _))]
        exact applyOps_instances_get?_of_forall Wr _ i hWr
      have hz : (applyOps V (applyOps (ops ++ Wr) s)).zones.map MemDnsZone.name =
          (applyOps ops s).zones.map MemDnsZone.name := by
        rw [applyOps_zones_map_name, applyOps_zones_map_name, applyOps_zones_map_name]
      have hrep : startStep ty names (applyOps ops s) i = (ops, none) := by
        have h0 := startStep_replay ty names s i
        rw [hs] at h0
        exact h0
      have hstep2 : startStep ty names (applyOps V (applyOps (ops ++ Wr) s)) i =
          (ops, none) :=
        (startStep_congr ty names _ _ i hci hz).trans hrep
      have hV2 : ∀ o ∈ V ++ ops, ∀ j, o.instTarget = some j → j ∉ rest := by
        intro o ho j hj
        rcases List.mem_append.mp ho with h | h
        · exact fun hmem => hV o h j hj (List.mem_cons_of_mem _ hmem)
        · rw [hops_target o h j hj]
          exact hi_rest
      have hihres : goSteps (startStep ty names)
          (applyOps (V ++ ops) (applyOps Wr (applyOps ops s))) rest = (Wr, er) := by
        have h0 := ih (applyOps ops s) (V ++ ops) hnd_rest hV2
        rw [hr] at h0
        exact h0
      have hstate : applyOps ops (applyOps V (applyOps (ops ++ Wr) s)) =
          applyOps (V ++ ops) (applyOps Wr (applyOps ops s)) := by
        rw [applyOps_append ops Wr s, applyOps_append V ops]
      rw [goSteps, hstep2]
      simp only
      rw [hstate, hihres]

theorem commandTrace_replay (cmd : Command) (s : MemState) :
    commandTrace cmd (dispatch cmd s).1 = commandTrace cmd s := by
  show commandTrace cmd (applyOps (commandTrace cmd s).1 s) = commandTrace cmd s
  cases cmd with
  | openCmd cs ps names =>
    simp only [commandTrace]
    rw [applyOps_firewalls_length]
    exact goSteps_state_blind _ (fun W s2 i => fwStep_applyOps _ _ W s2 i) _ _ s
  | closeCmd names =>
    simp only [commandTrace]
    rw [applyOps_firewalls_length]
    exact goSteps_state_blind _ (fun W s2 i => fwStep_applyOps _ _ W s2 i) _ _ s
  | startCmd ty names =>
    simp only [commandTrace]
    rw [applyOps_instances_length]
    exact goSteps_replay_start ty names (List.range s.instances.length) s []
      (List.nodup_range _) (fun o ho => absurd ho (List.not_mem_nil o))
  | stopCmd names =>
    simp only [commandTrace]
    rw [applyOps_instances_length]
    exact goSteps_state_blind _ (fun W s2 i => stopStep_applyOps _ W s2 i) _ _ s

/-- C5: dispatch is idempotent on the in-memory doubles. For every command
(Open, Close, Start, Stop) and every well-formed starting state, a second
consecutive dispatch of the same command returns the same outcome and ends
in the same state as the first: the second Open/Start changes nothing
beyond what the first already established, and the second Close/Stop is a
no-op on the state. -/
theorem c5_dispatch_idempotent (cmd : Command) (s : MemState) (h : MemWF s) :
    dispatch cmd (dispatch cmd s).1 = dispatch cmd s := by
  show (applyOps (commandTrace cmd (dispatch cmd s).1).1 (dispatch cmd s).1,
        (commandTrace cmd (dispatch cmd s).1).2) = dispatch cmd s
  rw [commandTrace_replay cmd s]
  show (applyOps (commandTrace cmd s).1 (applyOps (commandTrace cmd s).1 s),
        (commandTrace cmd s).2) = dispatch cmd s
  rw [applyOps_idem _ s h]
  rfl

theorem c5_witness :
    MemWF (MemState.mk
      [MemFirewall.mk "fw-1" "gate" ∅]
      [MemInstance.mk "i-1" "web" (some "www.example.com.") "t2.micro" 7 false]
      [MemDnsZone.mk "z-1" "example.com."
        [("www.example.com.", DnsTarget.a 8)]]) ∧
    dispatch (Command.startCmd none ["web"])
        (dispatch (Command.startCmd none ["web"]) (MemState.mk
          [MemFirewall.mk "fw-1" "gate" ∅]
          [MemInstance.mk "i-1" "web" (some "www.example.com.") "t2.micro" 7 false]
          [MemDnsZone.mk "z-1" "example.com."
            [("www.example.com.", DnsTarget.a 8)]])).1 =
      dispatch (Command.startCmd none ["web"]) (MemState.mk
        [MemFirewall.mk "fw-1" "gate" ∅]
        [MemInstance.mk "i-1" "web" (some "www.example.com.") "t2.micro" 7 false]
        [MemDnsZone.mk "z-1" "example.com."
          [("www.example.com.", DnsTarget.a 8)]]) :=
  ⟨by decide, c5_dispatch_idempotent _ _ (by decide)⟩

end Drawbridge